import Mathlib

/-!
Shallow embedding of the core of the `mirri-editor` terminal text editor
(input decoder, row/column model, incremental syntax highlighting,
text buffer) together with proofs about it.

Modelling conventions:
* A character is its Unicode scalar value, a `Nat` (Rust `char`).
* A string is a list of characters (`Str`); byte positions are recovered
  through the UTF-8 length of each character, exactly as Rust `String`
  byte offsets relate to its `char`s.
* Rust `usize` arithmetic is `Nat`; `saturating_sub` is `Nat` subtraction.
* Fallible / panicking operations return `Option`.
-/

/-- A Unicode scalar value (Rust `char`). -/
abbrev Ch := Nat

/-- A Rust `String` / `&str`, represented as its list of characters. -/
abbrev Str := List Ch

/-- Rust `char::len_utf8`: number of bytes of the character in UTF-8. -/
def utf8Len (c : Ch) : Nat :=
  if c < 0x80 then 1 else if c < 0x800 then 2 else if c < 0x10000 then 3 else 4

/-- Byte length of a string (Rust `str::len`). -/
def byteLen (s : Str) : Nat :=
  match s with
  | [] => 0
  | c :: cs => utf8Len c + byteLen cs

/-- The characters of the prefix occupying (at most) the first `n` bytes
(Rust slicing `&s[..n]`; for `n` on a character boundary this is exact). -/
def takeB (n : Nat) (s : Str) : Str :=
  match s with
  | [] => []
  | c :: cs => if utf8Len c ≤ n then c :: takeB (n - utf8Len c) cs else []

/-- The characters after the first `n` bytes (Rust slicing `&s[n..]`). -/
def dropB (n : Nat) (s : Str) : Str :=
  match s with
  | [] => []
  | c :: cs => if utf8Len c ≤ n then dropB (n - utf8Len c) cs else c :: cs

/-- `n` is a character-boundary byte offset of `s` (including `0` and
`byteLen s`), i.e. `Rust str::is_char_boundary`. -/
def isBoundary (s : Str) (n : Nat) : Bool :=
  match s with
  | [] => n = 0
  | c :: cs => n = 0 || (utf8Len c ≤ n && isBoundary cs (n - utf8Len c))

/-- Rust `char::is_ascii_control`: C0 controls and DEL. -/
def isAsciiControl (c : Ch) : Bool := c < 0x20 || c = 0x7F

/-- Rust `char::is_control`: the Unicode `Cc` category (C0, DEL, C1). -/
def isControl (c : Ch) : Bool := c < 0x20 || (0x7F ≤ c && c ≤ 0x9F)

/-- Display width of a non-control character, modelling
`unicode_width::UnicodeWidthChar::width` (UAX #11): `0` for combining
marks (e.g. U+0300–U+036F, U+1AB0–U+1AFF, U+20D0–U+20FF, U+FE20–U+FE2F),
`2` for East Asian wide/fullwidth ranges, `1` otherwise.  Only these
facts about the table are used: its value at specific code points in
witnesses/counterexamples, and nothing else (all general theorems treat
the width abstractly or hypothesise positivity). -/
def uwidth (c : Ch) : Nat :=
  if (0x300 ≤ c && c ≤ 0x36F) || (0x1AB0 ≤ c && c ≤ 0x1AFF) ||
     (0x20D0 ≤ c && c ≤ 0x20FF) || (0xFE20 ≤ c && c ≤ 0xFE2F) then 0
  else if (0x1100 ≤ c && c ≤ 0x115F) || (0x2E80 ≤ c && c ≤ 0x303E) ||
     (0x3041 ≤ c && c ≤ 0x33FF) || (0x3400 ≤ c && c ≤ 0x4DBF) ||
     (0x4E00 ≤ c && c ≤ 0x9FFF) || (0xA000 ≤ c && c ≤ 0xA4CF) ||
     (0xAC00 ≤ c && c ≤ 0xD7A3) || (0xF900 ≤ c && c ≤ 0xFAFF) ||
     (0xFE30 ≤ c && c ≤ 0xFE4F) || (0xFF00 ≤ c && c ≤ 0xFF60) ||
     (0xFFE0 ≤ c && c ≤ 0xFFE6) || (0x20000 ≤ c && c ≤ 0x3FFFD) then 2
  else 1

/-- `row.rs`: `const TAB_STOP: usize = 8`. -/
def TAB_STOP : Nat := 8

/-- One unit of rendered output for a row (`row.rs`, `RenderItemKind`). -/
inductive RenderItemKind where
  | padding : RenderItemKind
  | char (ch : Ch) : RenderItemKind
  | asciiControl (ch : Ch) : RenderItemKind
  | unicodeControl (ch : Ch) : RenderItemKind
deriving DecidableEq

/-- `row.rs`, `struct RenderItem`. -/
structure RenderItem where
  idx : Nat
  width : Nat
  kind : RenderItemKind
deriving DecidableEq

/-- `RenderItem::padding`. -/
def RenderItem.padding (idx width : Nat) : RenderItem :=
  ⟨idx, width, .padding⟩

/-- `RenderItem::build`: a tab expands to the next multiple of `TAB_STOP`
columns; an ASCII control renders as 2 columns; a non-ASCII control as a
6/7-column placeholder; anything else at its display width. -/
def RenderItem.build (idx : Nat) (ch : Ch) (curCol : Nat) : RenderItem :=
  if ch = 0x9 then .padding idx (TAB_STOP - curCol % TAB_STOP)
  else if isAsciiControl ch then ⟨idx, 2, .asciiControl ch⟩
  else if isControl ch then ⟨idx, if ch ≤ 0xffff then 6 else 7, .unicodeControl ch⟩
  else ⟨idx, uwidth ch, .char ch⟩

/-- The accumulation loop of `Row::get_rx_from_cx`: fold the widths of
the rendered items of `s` starting at column `col`. -/
def rxAux (s : Str) (col : Nat) : Nat :=
  match s with
  | [] => col
  | c :: cs => rxAux cs (col + (RenderItem.build 0 c col).width)

/-- `Row::get_rx_from_cx`: rendered column of byte offset `cx`
(the fold runs over the slice `&chars[..cx]`). -/
def get_rx_from_cx (s : Str) (cx : Nat) : Nat :=
  rxAux (takeB cx s) 0

/-- The scanning loop of `Row::get_cx_from_rx`: `idx` is the byte offset
of the head of `s`, `col` the current rendered column. -/
def cxAux (s : Str) (rx col idx : Nat) : Nat :=
  match s with
  | [] => idx
  | c :: cs =>
    if rx = col then idx
    else
      let item := RenderItem.build idx c col
      if col + item.width > rx then item.idx
      else cxAux cs rx (col + item.width) (idx + utf8Len c)

/-- `Row::get_cx_from_rx`: byte offset whose rendered column is `rx`
(returns `chars.len()` when `rx` is past the rendered row). -/
def get_cx_from_rx (s : Str) (rx : Nat) : Nat :=
  cxAux s rx 0 0

/-- The width assigned by `RenderItem::build` depends only on the character
and the current column, not on the byte index. -/
def itemWidth (c col : Nat) : Nat := (RenderItem.build 0 c col).width

/-- Every character of `s` is either a control character (rendered at
width 2, 6 or 7) or has positive display width; tabs are ASCII controls.
This excludes exactly the zero-width (combining) characters. -/
def hasPosWidth (s : Str) : Prop := ∀ c ∈ s, isControl c = true ∨ 1 ≤ uwidth c

/-- `geom.rs`, `struct Segment`: a half-open column window
`[origin, origin + size)` (`Segment::range`). -/
structure Segment where
  origin : Nat
  size : Nat
deriving DecidableEq

/-- One step of the iterator `Render::next` (`row.rs`), annotated: for
every character whose item is yielded, record the column span
`[colS, colE)` the item naturally occupies, the item built by
`RenderItem::build`, and the item actually emitted. -/
structure RenderSpan where
  colS : Nat
  colE : Nat
  built : RenderItem
  emitted : RenderItem
deriving DecidableEq

/-- The full run of the iterator `Render::next` (`row.rs`) over the
remaining characters `s`, with iterator state `curCol` (current rendered
column) and `idx` (byte offset of the head of `s`), annotated with the
natural column span of each yielded item.  Field order of the source:
break when `col_s >= scr_e`; skip when `col_e <= scr_s`; left-clip to
`col_e - scr_s` when `col_s < scr_s`; right-clip to `scr_e - col_s` when
`col_e > scr_e`; otherwise emit the item unchanged. -/
def renderSpans (seg : Segment) (s : Str) (curCol idx : Nat) : List RenderSpan :=
  match s with
  | [] => []
  | c :: rest =>
    if seg.origin + seg.size ≤ curCol then []
    else
      let item := RenderItem.build idx c curCol
      let colE := curCol + item.width
      let k := renderSpans seg rest colE (idx + utf8Len c)
      if colE ≤ seg.origin then k
      else if curCol < seg.origin then
        ⟨curCol, colE, item, RenderItem.padding idx (colE - seg.origin)⟩ :: k
      else if seg.origin + seg.size < colE then
        ⟨curCol, colE, item, RenderItem.padding idx (seg.origin + seg.size - curCol)⟩ :: k
      else ⟨curCol, colE, item, item⟩ :: k

/-- `Row::render`: the sequence of items yielded for the row's column
window (the iterator starts at column 0, byte offset 0). -/
def renderItems (seg : Segment) (s : Str) : List RenderItem :=
  (renderSpans seg s 0 0).map (·.emitted)

/-- `syntax.rs`, `struct Syntax`: the immutable syntax rule table (named
`Rules` here because `Syntax` collides with a reserved name).  The
`filetype`/`filematch` fields, used only by the filename-driven
`Syntax::select`, are not needed by any claim and are omitted. -/
structure Rules where
  number : Bool
  single_line_comment : List Str
  multi_line_comment : List (Str × Str)
  string_literal : List (Str × Str)
  keyword1 : List Str
  keyword2 : List Str

/-- `syntax.rs`, `enum Highlight` (`Match` is named `matched`). -/
inductive Highlight where
  | normal
  | singleLineComment
  | multiLineComment
  | keyword1
  | keyword2
  | string
  | number
  | matched
deriving DecidableEq

/-- `syntax.rs`, `enum Open`: an unterminated multi-line comment (with
its end marker) or string literal (with its closing delimiter). -/
inductive Open where
  | comment (mce : Str)
  | str (sle : Str)
deriving DecidableEq

/-- Rust `char::is_whitespace`: the Unicode White_Space property. -/
def isWhitespace (c : Ch) : Bool :=
  (0x09 ≤ c && c ≤ 0x0D) || c = 0x20 || c = 0x85 || c = 0xA0 || c = 0x1680 ||
  (0x2000 ≤ c && c ≤ 0x200A) || c = 0x2028 || c = 0x2029 || c = 0x202F ||
  c = 0x205F || c = 0x3000

/-- `syntax.rs`, `fn is_separator`: whitespace, NUL, or one of the
punctuation characters comma, dot, parentheses, plus, minus, slash,
star, equals, tilde, percent, angle brackets, square brackets,
semicolon. -/
def is_separator (c : Ch) : Bool :=
  isWhitespace c || c = 0 ||
  c ∈ ([0x2C, 0x2E, 0x28, 0x29, 0x2B, 0x2D, 0x2F, 0x2A, 0x3D, 0x7E,
        0x25, 0x3C, 0x3E, 0x5B, 0x5D, 0x3B] : List Ch)

/-- Rust `char::is_digit(10)`. -/
def isDigit (c : Ch) : Bool := 0x30 ≤ c && c ≤ 0x39

/-- First character index of `s` at which `pat` occurs as a substring
(Rust `str::match_indices(pat).next()`, index converted from bytes to
characters). -/
def findPrefixIdx (pat : Str) (s : Str) : Option Nat :=
  if pat.isPrefixOf s then some 0
  else
    match s with
    | [] => none
    | _ :: t => (findPrefixIdx pat t).map (· + 1)

/-- `Syntax::parse_single_line_comment`: a row starting with a single-line
comment marker is consumed entirely. -/
def parse_single_line_comment (r : Rules) (chars : Str) : Option Nat :=
  r.single_line_comment.findSome? fun scs =>
    if scs.isPrefixOf chars then some chars.length else none

/-- `Syntax::parse_multi_line_comment_start`. -/
def parse_multi_line_comment_start (r : Rules) (chars : Str) : Option (Nat × Str) :=
  r.multi_line_comment.findSome? fun p =>
    if p.1.isPrefixOf chars then some (p.1.length, p.2) else none

/-- `Syntax::parse_multi_line_comment_end`: scan for the end marker;
consume past it (closing the comment) or to end of row (still open). -/
def parse_multi_line_comment_end (mce : Str) (chars : Str) : Nat × Option Open :=
  match findPrefixIdx mce chars with
  | some i => (i + mce.length, none)
  | none => (chars.length, some (.comment mce))

/-- `Syntax::parse_string_literal_start`. -/
def parse_string_literal_start (r : Rules) (chars : Str) : Option (Nat × Str) :=
  r.string_literal.findSome? fun p =>
    if p.1.isPrefixOf chars then some (p.1.length, p.2) else none

/-- The `match_indices(&[sle_head, '\\'])` loop of
`Syntax::parse_string_literal_end`: walk the positions of `s` (position
`i`, `esc` true when the previous position set an escape that applies
here); a backslash (not itself escaped) escapes the next matching
position; an unescaped occurrence of the one-character delimiter closes
the string (`m.starts_with(sle)` with `m` a single character is
`sle.isPrefixOf [c]`). -/
def sleGo (sleHead : Ch) (sle : Str) : Str → Nat → Bool → Option Nat
  | [], _, _ => none
  | c :: rest, i, esc =>
    if c = sleHead || c = 0x5C then
      if esc then sleGo sleHead sle rest (i + 1) false
      else if c = 0x5C then sleGo sleHead sle rest (i + 1) true
      else if sle.isPrefixOf [c] then some (i + sle.length)
      else sleGo sleHead sle rest (i + 1) false
    else sleGo sleHead sle rest (i + 1) false

/-- `Syntax::parse_string_literal_end`.  Rust `unwrap`s the head of the
delimiter; an empty delimiter (impossible for the built-in tables) is
modelled as a stuck zero-length step. -/
def parse_string_literal_end (sle : Str) (chars : Str) : Nat × Option Open :=
  match sle.head? with
  | none => (0, some (.str sle))
  | some h =>
    match sleGo h sle chars 0 false with
    | some n => (n, none)
    | none => (chars.length, some (.str sle))

/-- `Syntax::parse_number`: digits, then digits-or-dots, only after a
separator and when the table enables numbers. -/
def parse_number (r : Rules) (chars : Str) (prevSep : Bool) : Option Nat :=
  if !prevSep || !r.number then none
  else
    let t := chars.dropWhile isDigit
    if chars.length = t.length then none
    else
      let t2 := t.dropWhile fun c => isDigit c || c = 0x2E
      some (chars.length - t2.length)

/-- `Syntax::parse_keyword_common`: first keyword of the list that is a
prefix of the row and is followed by a separator or end of row. -/
def parse_keyword_common (kws : List Str) (chars : Str) (prevSep : Bool) : Option Nat :=
  if !prevSep then none
  else
    kws.findSome? fun kw =>
      if kw.isPrefixOf chars then
        let t := chars.drop kw.length
        if t.isEmpty || (t.head?.elim false is_separator) then some kw.length else none
      else none

/-- `Syntax::parse`: one lexing step.  Returns the highlight of the
consumed span, the number of characters consumed, and the updated
`prev_sep` / `open` state. -/
def Rules.parse (r : Rules) (chars : Str) (prevSep : Bool) (op : Option Open) :
    Highlight × Nat × Bool × Option Open :=
  match op with
  | some (.str sle) =>
    let (len, newOpen) := parse_string_literal_end sle chars
    (.string, len, true, newOpen)
  | some (.comment mce) =>
    let (len, newOpen) := parse_multi_line_comment_end mce chars
    (.multiLineComment, len, true, newOpen)
  | none =>
    match parse_single_line_comment r chars with
    | some len => (.singleLineComment, len, true, none)
    | none =>
      match parse_multi_line_comment_start r chars with
      | some (len, mce) => (.multiLineComment, len, true, some (.comment mce))
      | none =>
        match parse_string_literal_start r chars with
        | some (len, sle) => (.string, len, true, some (.str sle))
        | none =>
          match parse_number r chars prevSep with
          | some len => (.number, len, false, none)
          | none =>
            match parse_keyword_common r.keyword1 chars prevSep with
            | some len => (.keyword1, len, false, none)
            | none =>
              match parse_keyword_common r.keyword2 chars prevSep with
              | some len => (.keyword2, len, false, none)
              | none =>
                match chars with
                | [] => (.normal, 0, prevSep, none)
                | ch :: _ => (.normal, 1, is_separator ch, none)

/-- The `while !chars.is_empty()` loop of `SyntaxState::update`: each
step emits its highlight once per consumed byte.  `fuel` bounds the
number of steps (each step of a well-formed table consumes at least one
character, so `chars.length` fuel always suffices; `none` models a scan
that would never terminate). -/
def scan (fuel : Nat) (r : Rules) (chars : Str) (prevSep : Bool) (op : Option Open) :
    Option (List Highlight × Option Open) :=
  match chars with
  | [] => some ([], op)
  | _ =>
    match fuel with
    | 0 => none
    | fuel + 1 =>
      let (hl, len, ps, op') := r.parse chars prevSep op
      match scan fuel r (chars.drop len) ps op' with
      | none => none
      | some (rest, opEnd) =>
        some (List.replicate (byteLen (chars.take len)) hl ++ rest, opEnd)

/-- `syntax.rs`, `struct SyntaxState` (the source field `open` is named
`openSt`, `open` being reserved). -/
structure SyntaxState where
  updated : Bool
  openSt : Option Open
  highlight : List Highlight
deriving DecidableEq

/-- `SyntaxState::new`. -/
def SyntaxState.new : SyntaxState := ⟨false, none, []⟩

/-- `SyntaxState::invalidate`. -/
def SyntaxState.invalidate (s : SyntaxState) : SyntaxState := { s with updated := false }

/-- `SyntaxState::update`: no-op when already updated; otherwise rescan
the row resuming from the previous row's `open` state, then invalidate
the next row's state exactly when the terminal `open` value changed.
Returns the new state of this row and of the next row; `none` models a
scan that never terminates (possible only for ill-formed rule tables). -/
def SyntaxState.update (s : SyntaxState) (render : Str) (r : Rules)
    (prev : Option SyntaxState) (next : Option SyntaxState) :
    Option (SyntaxState × Option SyntaxState) :=
  if s.updated then some (s, next)
  else
    match scan render.length r render true (prev.bind (·.openSt)) with
    | none => none
    | some (hl, opEnd) =>
      some (⟨true, opEnd, hl⟩,
        if s.openSt = opEnd then next else next.map SyntaxState.invalidate)

/-- Well-formedness of a rule table: every configured marker, delimiter
and keyword is nonempty.  This holds for every table of the source's
`HLDB` and for `DEFAULT`, and is exactly what makes each `parse` step
consume at least one character. -/
abbrev wfRules (r : Rules) : Prop :=
  (∀ scs ∈ r.single_line_comment, scs ≠ []) ∧
  (∀ p ∈ r.multi_line_comment, p.1 ≠ [] ∧ p.2 ≠ []) ∧
  (∀ p ∈ r.string_literal, p.1 ≠ [] ∧ p.2 ≠ []) ∧
  (∀ kw ∈ r.keyword1, kw ≠ []) ∧
  (∀ kw ∈ r.keyword2, kw ≠ [])

/-- Well-formedness of a carried `open` state: its marker is nonempty. -/
abbrev wfOpen : Option Open → Prop
  | none => True
  | some (.comment mce) => mce ≠ []
  | some (.str sle) => sle ≠ []

/-- `syntax.rs`, `DEFAULT`: the fallback rule table with no rules. -/
def defaultRules : Rules := ⟨false, [], [], [], [], []⟩

/-- The C-like entry of `syntax.rs`'s `HLDB`, with markers written as
code-point lists: single-line comment marker two slashes, multi-line
comment pair slash-star and star-slash, double- and single-quote string
delimiters (keyword lists abbreviated to a representative sample; the
claims quantify over arbitrary well-formed tables, so the exact lists
are never load-bearing). -/
def cRules : Rules :=
  { number := true
    single_line_comment := [[0x2F, 0x2F]]
    multi_line_comment := [([0x2F, 0x2A], [0x2A, 0x2F])]
    string_literal := [([0x22], [0x22]), ([0x27], [0x27])]
    keyword1 := [[0x69, 0x66], [0x77, 0x68, 0x69, 0x6C, 0x65],
                 [0x72, 0x65, 0x74, 0x75, 0x72, 0x6E]]
    keyword2 := [[0x69, 0x6E, 0x74], [0x63, 0x68, 0x61, 0x72], [0x76, 0x6F, 0x69, 0x64]] }

/-- `decode.rs`, `enum Key` (`End` is named `endKey`, `end` being
reserved). -/
inductive Key where
  | char (c : Ch)
  | arrowLeft
  | arrowRight
  | arrowUp
  | arrowDown
  | delete
  | home
  | endKey
  | pageUp
  | pageDown
deriving DecidableEq

/-- `decode.rs`, `struct Input`: a key plus ctrl/alt modifier flags. -/
structure Input where
  key : Key
  ctrl : Bool
  alt : Bool
deriving DecidableEq

/-- `Input::new`. -/
def Input.new (key : Key) : Input := ⟨key, false, false⟩

/-- `Input::ctrl` (named `ctrlKey`, `ctrl` being a field of `Input`). -/
def Input.ctrlKey (key : Key) : Input := ⟨key, true, false⟩

/-- `decode.rs`, `enum Error`.  Reading from a pure byte list never
fails with `TerminalInput`; the constructor is kept for fidelity of the
error type. -/
inductive DErr where
  | terminalInput
  | nonUtf8Input
  | unexpectedEscapeSequence (seq : List Ch)
deriving DecidableEq

/-- The state of `decode.rs`'s `Decoder` together with the unread input:
one pushed-back character of lookahead and the remaining byte stream. -/
structure DecSt where
  unread : Option Ch
  bytes : List Nat
deriving DecidableEq

/-- The UTF-8 sequence width table of `Decoder::read_char` (leading-byte
high bits; 0 for a stray continuation or a 0xF8–0xFF byte). -/
def utf8Width (b : Nat) : Nat :=
  if b ≤ 0x7F then 1
  else if b ≤ 0xBF then 0
  else if b ≤ 0xDF then 2
  else if b ≤ 0xEF then 3
  else if b ≤ 0xF7 then 4
  else 0

/-- A UTF-8 continuation byte. -/
def isCont (b : Nat) : Bool := 0x80 ≤ b && b ≤ 0xBF

/-- Rust `str::from_utf8` followed by `chars().next()` on the at most
4-byte buffer collected by `Decoder::read_char`: decode one character,
rejecting overlong encodings, surrogates, out-of-range values and
truncated sequences. -/
def utf8DecodeBytes (bs : List Nat) : Option Ch :=
  match bs with
  | [a] => if a < 0x80 then some a else none
  | [a, b] =>
    if (0xC2 ≤ a && a ≤ 0xDF) && isCont b then
      some ((a - 0xC0) * 0x40 + (b - 0x80))
    else none
  | [a, b, c] =>
    if ((a = 0xE0 && (0xA0 ≤ b && b ≤ 0xBF)) ||
        (((0xE1 ≤ a && a ≤ 0xEC) || a = 0xEE || a = 0xEF) && isCont b) ||
        (a = 0xED && (0x80 ≤ b && b ≤ 0x9F))) && isCont c then
      some ((a - 0xE0) * 0x1000 + (b - 0x80) * 0x40 + (c - 0x80))
    else none
  | [a, b, c, d] =>
    if ((a = 0xF0 && (0x90 ≤ b && b ≤ 0xBF)) ||
        ((0xF1 ≤ a && a ≤ 0xF3) && isCont b) ||
        (a = 0xF4 && (0x80 ≤ b && b ≤ 0x8F))) && isCont c && isCont d then
      some ((a - 0xF0) * 0x40000 + (b - 0x80) * 0x1000 + (c - 0x80) * 0x40 + (d - 0x80))
    else none
  | _ => none

/-- `Decoder::read_char`: return the pushed-back character if any;
otherwise read one byte, determine the sequence width from it, read the
remaining bytes (tolerating a short read at end of stream), and decode
the buffer as UTF-8 (`NonUtf8Input` on failure). -/
def readChar (st : DecSt) : Except DErr (Option Ch × DecSt) :=
  match st.unread with
  | some ch => .ok (some ch, ⟨none, st.bytes⟩)
  | none =>
    match st.bytes with
    | [] => .ok (none, st)
    | b :: rest =>
      let width := utf8Width b
      match utf8DecodeBytes (b :: rest.take (width - 1)) with
      | some c => .ok (some c, ⟨none, rest.drop (width - 1)⟩)
      | none => .error .nonUtf8Input

/-- The escape-sequence accumulation loop of `Decoder::read_input`:
push characters onto the buffer until a terminator
(`A`, `B`, `C`, `D`, `H`, `F`, `~`) or end of stream.  `fuel` bounds the
iteration count; exhausted fuel behaves like end of stream. -/
def escLoop (fuel : Nat) (buf : List Ch) (st : DecSt) : Except DErr (List Ch × DecSt) :=
  match fuel with
  | 0 => .ok (buf, st)
  | fuel + 1 =>
    match readChar st with
    | .error e => .error e
    | .ok (none, st') => .ok (buf, st')
    | .ok (some ch, st') =>
      if ch = 0x41 || ch = 0x42 || ch = 0x43 || ch = 0x44 ||
          ch = 0x48 || ch = 0x46 || ch = 0x7E then
        .ok (buf ++ [ch], st')
      else escLoop fuel (buf ++ [ch]) st'

/-- The fixed lookup table of `Decoder::read_input` matching the
accumulated escape sequence (ESC `[` ...). -/
def escKey (buf : List Ch) : Option Key :=
  if buf = [0x1B, 0x5B, 0x31, 0x7E] || buf = [0x1B, 0x5B, 0x37, 0x7E] ||
      buf = [0x1B, 0x5B, 0x48] then some .home
  else if buf = [0x1B, 0x5B, 0x33, 0x7E] then some .delete
  else if buf = [0x1B, 0x5B, 0x34, 0x7E] || buf = [0x1B, 0x5B, 0x38, 0x7E] ||
      buf = [0x1B, 0x5B, 0x46] then some .endKey
  else if buf = [0x1B, 0x5B, 0x35, 0x7E] then some .pageUp
  else if buf = [0x1B, 0x5B, 0x36, 0x7E] then some .pageDown
  else if buf = [0x1B, 0x5B, 0x41] then some .arrowUp
  else if buf = [0x1B, 0x5B, 0x42] then some .arrowDown
  else if buf = [0x1B, 0x5B, 0x43] then some .arrowRight
  else if buf = [0x1B, 0x5B, 0x44] then some .arrowLeft
  else none

/-- The tail of `Decoder::read_input` after the escape loop: a table hit
yields the plain key; an unrecognized sequence yields `Ok` of the
ctrl-`[` input — never the `UnexpectedEscapeSequence` error. -/
def afterEsc (buf : List Ch) (st : DecSt) : Except DErr (Option Input × DecSt) :=
  match escKey buf with
  | some k => .ok (some (Input.new k), st)
  | none => .ok (some (Input.ctrlKey (.char 0x5B)), st)

/-- `Decoder::read_input` (`decode.rs`): end of stream yields no event;
ESC followed by `[` accumulates an escape sequence and looks it up; ESC
followed by another character pushes it back, reads recursively and
marks the result's `alt` flag; ESC alone yields ctrl-`[`; an ASCII
control folds (XOR 0x40) to a ctrl-modified letter; anything else is a
plain key.  `fuel` bounds the recursion depth (each recursive call
consumes at least one byte, so `bytes.length + 2` always suffices);
exhausted fuel behaves like end of stream. -/
def readInput (fuel : Nat) (st : DecSt) : Except DErr (Option Input × DecSt) :=
  match fuel with
  | 0 => .ok (none, st)
  | fuel + 1 =>
    match readChar st with
    | .error e => .error e
    | .ok (none, st1) => .ok (none, st1)
    | .ok (some ch, st1) =>
      if ch = 0x1B then
        match readChar st1 with
        | .error e => .error e
        | .ok (none, st2) => .ok (some (Input.ctrlKey (.char 0x5B)), st2)
        | .ok (some ch2, st2) =>
          if ch2 = 0x5B then
            match escLoop fuel [0x1B, 0x5B] st2 with
            | .error e => .error e
            | .ok (buf, st3) => afterEsc buf st3
          else
            match readInput fuel ⟨some ch2, st2.bytes⟩ with
            | .error e => .error e
            | .ok (none, st3) => .ok (none, st3)
            | .ok (some inp, st3) => .ok (some { inp with alt := true }, st3)
      else if isAsciiControl ch then
        .ok (some (Input.ctrlKey (.char (ch ^^^ 0x40))), st1)
      else
        .ok (some (Input.new (.char ch)), st1)

/-- Entry point: run `read_input` on a fresh decoder over a byte
stream. -/
def readInputTop (bytes : List Nat) : Except DErr (Option Input × DecSt) :=
  readInput (bytes.length + 2) ⟨none, bytes⟩

/-- The error is not `UnexpectedEscapeSequence`. -/
def errOk : DErr → Bool
  | .unexpectedEscapeSequence _ => false
  | _ => true

/-- The result is not the `UnexpectedEscapeSequence` error. -/
def notUnexpEsc {α : Type} : Except DErr α → Bool
  | .error e => errOk e
  | .ok _ => true

/-- Characters stripped by `Row::new`'s
`trim_end_matches(&['\n', '\r'])`: strip every trailing newline or
carriage return. -/
def stripTrailingNl (s : Str) : Str :=
  (s.reverse.dropWhile fun c => c = 0xA || c = 0xD).reverse

/-- `row.rs`, `struct Row`: one line's text plus its highlight state
(the render segment, used only by the windowed render iterator, is the
explicit `Segment` argument of `renderSpans`). -/
structure Row where
  chars : Str
  syntax_state : SyntaxState
deriving DecidableEq

/-- `Row::new`: strip the trailing newline/carriage-return characters
and start with a fresh (invalidated) syntax state. -/
def Row.new (s : Str) : Row := ⟨stripTrailingNl s, SyntaxState.new⟩

/-- `Row::insert_char` at character-boundary byte offset `k` (Rust
panics off a boundary; callers only pass boundaries). -/
def Row.insert_char (r : Row) (k : Nat) (ch : Ch) : Row :=
  ⟨takeB k r.chars ++ ch :: dropB k r.chars, r.syntax_state.invalidate⟩

/-- `Row::delete_char`: remove the character at byte offset `k`. -/
def Row.delete_char (r : Row) (k : Nat) : Row :=
  ⟨takeB k r.chars ++ (dropB k r.chars).tail, r.syntax_state.invalidate⟩

/-- `Row::append_str`. -/
def Row.append_str (r : Row) (s : Str) : Row :=
  ⟨r.chars ++ s, r.syntax_state.invalidate⟩

/-- `Row::split`: split off the text at byte offset `k`, invalidating
the highlight state only when the split-off suffix is nonempty. -/
def Row.split (r : Row) (k : Nat) : Row × Str :=
  let out := dropB k r.chars
  (⟨takeB k r.chars,
    if out.isEmpty then r.syntax_state else r.syntax_state.invalidate⟩, out)

/-- `geom.rs`, `struct Point`. -/
structure Point where
  x : Nat
  y : Nat
deriving DecidableEq

/-- `geom.rs`, `struct Size`. -/
structure Size where
  cols : Nat
  rows : Nat
deriving DecidableEq

/-- `geom.rs`, `struct Rect`. -/
structure Rect where
  origin : Point
  size : Size
deriving DecidableEq

/-- `text_buffer.rs`, `struct TextBuffer`: the row sequence, cursor
(byte offset `x` within row `y`), dirty flag and viewport rectangle.
The filename, selected rule table and the `~` filler row take part in
no claim and are omitted. -/
structure TextBuffer where
  c : Point
  rows : List Row
  is_dirty : Bool
  render_rect : Rect
deriving DecidableEq

/-- `editor.rs`, `enum CursorMove` (`End` is named `rowEnd`). -/
inductive CursorMove where
  | left
  | right
  | home
  | rowEnd
  | up
  | down
  | pageUp
  | pageDown
  | bufferHome
  | bufferEnd
deriving DecidableEq

/-- The rendered column of the cursor,
`rows.get(c.y).map(|row| row.get_rx_from_cx(c.x)).unwrap_or(0)`
(computed identically in `TextBuffer::scroll` and
`TextBuffer::move_cursor`). -/
def TextBuffer.curRx (b : TextBuffer) : Nat :=
  match b.rows.get? b.c.y with
  | some r => get_rx_from_cx r.chars b.c.x
  | none => 0

/-- The `y_scroll` tail of `TextBuffer::move_cursor`: remember the
cursor's rendered column, move the cursor row up (saturating) or down
(clamped to the last row), and re-clamp the byte offset to the nearest
character boundary of the target row via `get_cx_from_rx`. -/
def TextBuffer.yScrollMove (b : TextBuffer) (dy : Nat) (isUp : Bool) : TextBuffer :=
  let rx := b.curRx
  let newY :=
    if isUp then b.c.y - dy
    else
      let y1 := b.c.y + dy
      let maxY := b.rows.length - 1
      if maxY ≤ y1 then maxY else y1
  let newX :=
    match b.rows.get? newY with
    | some r => get_cx_from_rx r.chars rx
    | none => 0
  { b with c := ⟨newX, newY⟩ }

/-- `TextBuffer::move_cursor`. `none` models the out-of-bounds `Vec`
index panic (reachable only from cursor states no editor flow
produces). -/
def TextBuffer.move_cursor (b : TextBuffer) (mv : CursorMove) : Option TextBuffer :=
  let row := b.rows.get? b.c.y
  match mv with
  | .left =>
    match row.bind fun r => (takeB b.c.x r.chars).getLast? with
    | some ch => some { b with c := ⟨b.c.x - utf8Len ch, b.c.y⟩ }
    | none =>
      if 0 < b.c.y then
        match b.rows.get? (b.c.y - 1) with
        | some r2 => some { b with c := ⟨byteLen r2.chars, b.c.y - 1⟩ }
        | none => none
      else some b
  | .right =>
    match row with
    | some r =>
      match (dropB b.c.x r.chars).head? with
      | some ch => some { b with c := ⟨b.c.x + utf8Len ch, b.c.y⟩ }
      | none => some { b with c := ⟨0, b.c.y + 1⟩ }
    | none => some b
  | .home => some { b with c := ⟨0, b.c.y⟩ }
  | .rowEnd =>
    match row with
    | some r => some { b with c := ⟨byteLen r.chars, b.c.y⟩ }
    | none => some b
  | .up => some (b.yScrollMove 1 true)
  | .down => some (b.yScrollMove 1 false)
  | .pageUp =>
    some (b.yScrollMove ((b.c.y - b.render_rect.origin.y) + b.render_rect.size.rows) true)
  | .pageDown =>
    some (b.yScrollMove
      ((b.render_rect.origin.y + (b.render_rect.size.rows - 1) - b.c.y) +
        b.render_rect.size.rows) false)
  | .bufferHome => some { b with c := ⟨0, 0⟩ }
  | .bufferEnd =>
    match b.rows.getLast? with
    | some r => some { b with c := ⟨byteLen r.chars, b.rows.length - 1⟩ }
    | none => some b

/-- `TextBuffer::insert_row` (Rust `Vec::insert`; all callers pass an
in-bounds index). -/
def TextBuffer.insert_row (b : TextBuffer) (k : Nat) (s : Str) : TextBuffer :=
  { b with rows := List.insertIdx k (Row.new s) b.rows, is_dirty := true }

/-- `TextBuffer::append_row`. -/
def TextBuffer.append_row (b : TextBuffer) (s : Str) : TextBuffer :=
  b.insert_row b.rows.length s

/-- `TextBuffer::delete_row`. -/
def TextBuffer.delete_row (b : TextBuffer) (k : Nat) : TextBuffer :=
  { b with rows := b.rows.eraseIdx k, is_dirty := true }

/-- `TextBuffer::insert_char`: create an empty row when the cursor is
one past the last row, insert into the cursor row, step right, mark
dirty. -/
def TextBuffer.insert_char (b : TextBuffer) (ch : Ch) : Option TextBuffer :=
  let b1 := if b.c.y = b.rows.length then b.append_row [] else b
  match b1.rows.get? b1.c.y with
  | none => none
  | some r =>
    let b2 := { b1 with rows := b1.rows.set b1.c.y (r.insert_char b1.c.x ch) }
    (b2.move_cursor .right).map fun b3 => { b3 with is_dirty := true }

/-- `TextBuffer::insert_newline`: split the cursor row at the cursor
byte offset into two rows (or append an empty row when the cursor is
past the last row), step right, mark dirty. -/
def TextBuffer.insert_newline (b : TextBuffer) : Option TextBuffer :=
  let b1 :=
    match b.rows.get? b.c.y with
    | some r =>
      let (r2, rest) := r.split b.c.x
      ({ b with rows := b.rows.set b.c.y r2 }).insert_row (b.c.y + 1) rest
    | none => b.append_row []
  (b1.move_cursor .right).map fun b2 => { b2 with is_dirty := true }

/-- `TextBuffer::delete_char`: delete the character at the cursor, or —
at the end of a row with a successor — append the next row's text onto
this row and remove the next row.  `none` models the
`split_at_mut(c.y + 1)` panic when the cursor row is past the end. -/
def TextBuffer.delete_char (b : TextBuffer) : Option TextBuffer :=
  if b.rows.length < b.c.y + 1 then none
  else
    match b.rows.get? b.c.y with
    | none => none
    | some cur =>
      if b.c.x < byteLen cur.chars then
        some { b with rows := b.rows.set b.c.y (cur.delete_char b.c.x), is_dirty := true }
      else
        match b.rows.get? (b.c.y + 1) with
        | some next =>
          some (({ b with rows := b.rows.set b.c.y (cur.append_str next.chars) }).delete_row
            (b.c.y + 1))
        | none => some b

/-- `TextBuffer::delete_back_char`: move left, then delete. -/
def TextBuffer.delete_back_char (b : TextBuffer) : Option TextBuffer :=
  (b.move_cursor .left).bind TextBuffer.delete_char

/-- `TextBuffer::scroll`: adjust the viewport origin by the minimum
needed to keep the cursor visible and return the cursor's position
relative to the (new) origin. -/
def TextBuffer.scroll (b : TextBuffer) : TextBuffer × Point :=
  let rx := b.curRx
  let oy1 := if b.c.y < b.render_rect.origin.y then b.c.y else b.render_rect.origin.y
  let oy2 :=
    if oy1 + (b.render_rect.size.rows - 1) < b.c.y then
      b.c.y - (b.render_rect.size.rows - 1)
    else oy1
  let ox1 := if rx < b.render_rect.origin.x then rx else b.render_rect.origin.x
  let ox2 :=
    if ox1 + (b.render_rect.size.cols - 1) < rx then
      rx - (b.render_rect.size.cols - 1)
    else ox1
  ({ b with render_rect := { b.render_rect with origin := ⟨ox2, oy2⟩ } },
    ⟨rx - ox2, b.c.y - oy2⟩)

/-- Character indices of `s` at which `q` occurs as a substring. -/
def substrOccs (q s : Str) : List Nat :=
  (List.range (s.length + 1)).filter fun i => q.isPrefixOf (s.drop i)

/-- Rust `str::match_indices(q).next()`: byte offset of the first
occurrence of `q` (occurrences of a valid UTF-8 substring always start
on character boundaries, so enumerating character positions is exact). -/
def matchIndicesHead (q s : Str) : Option Nat :=
  (substrOccs q s).head?.map fun i => byteLen (s.take i)

/-- Rust `str::rmatch_indices(q).next()`: byte offset of the last
occurrence of `q`. -/
def rmatchIndicesHead (q s : Str) : Option Nat :=
  (substrOccs q s).getLast?.map fun i => byteLen (s.take i)

/-- The `for _ in 0..=rows.len()` loop of `Find::search`
(`text_buffer.rs`): at most `rows.len() + 1` iterations; forward search
scans the row after byte offset `cxe`, backward search scans the row
before byte offset `cxs`; on a miss, wrap to the next/previous row and
reset the window.  On a hit the cursor is set to the match start and the
new `last_match` triple is produced; `lm0` is returned unchanged when
the loop exhausts.  The search-match highlight overlay
(`syntax_mut().set_overlay`, absent from `src/syntax.rs`) alters only
displayed highlight tags, never text or cursor, and is not modelled.
`none` models the `rows[cy]` index panic (empty buffer or cursor past
the end). -/
def searchGo (fwd : Bool) (q : Str) (b : TextBuffer) (lm0 : Option (Nat × Nat × Nat)) :
    Nat → Nat → Nat → Nat → Option (TextBuffer × Option (Nat × Nat × Nat))
  | 0, _, _, _ => some (b, lm0)
  | k + 1, cy, cxs, cxe =>
    match b.rows.get? cy with
    | none => none
    | some row =>
      let res :=
        if fwd then (matchIndicesHead q (dropB cxe row.chars)).map (cxe + ·)
        else rmatchIndicesHead q (takeB cxs row.chars)
      match res with
      | some cx => some ({ b with c := ⟨cx, cy⟩ }, some (cy, cx, cx + byteLen q))
      | none =>
        let cy2 :=
          if fwd then (cy + 1) % b.rows.length
          else if cy = 0 then b.rows.length - 1 else cy - 1
        match b.rows.get? cy2 with
        | none => none
        | some row2 => searchGo fwd q b lm0 k cy2 (byteLen row2.chars) 0

/-- `Find::search`: start from the remembered `last_match` (or the
cursor position) and run the wrap-around loop. -/
def find_search (fwd : Bool) (lm : Option (Nat × Nat × Nat)) (q : Str) (b : TextBuffer) :
    Option (TextBuffer × Option (Nat × Nat × Nat)) :=
  let start := lm.getD (b.c.y, b.c.x, b.c.x)
  searchGo fwd q b lm (b.rows.length + 1) start.1 start.2.1 start.2.2

/-- The cursor-boundary invariant: the cursor byte offset `c.x` lies on
a character boundary of row `c.y`'s text (hence `0 ≤ c.x ≤` text
length); when the cursor is past the last row, `c.x = 0` (a boundary of
the empty text). -/
def cursorOK (b : TextBuffer) : Bool :=
  isBoundary (((b.rows.get? b.c.y).map Row.chars).getD []) b.c.x

/-- A remembered `last_match` triple is consistent with the buffer: its
window offsets lie on character boundaries of its row (trivial when the
row index is out of range: the search loop then panics). -/
def lastMatchOK (b : TextBuffer) : Option (Nat × Nat × Nat) → Prop
  | none => True
  | some (cy, cxs, cxe) => ∀ r, b.rows.get? cy = some r →
      isBoundary r.chars cxs = true ∧ isBoundary r.chars cxe = true

theorem takeB_append_dropB (n : Nat) (s : Str) : takeB n s ++ dropB n s = s := by
  induction s generalizing n with
  | nil => simp [takeB, dropB]
  | cons c cs ih =>
    simp only [takeB, dropB]
    by_cases h : utf8Len c ≤ n
    · simp [h, ih]
    · simp [h]

theorem byteLen_takeB_le (n : Nat) (s : Str) : byteLen (takeB n s) ≤ n := by
  induction s generalizing n with
  | nil => simp [takeB, byteLen]
  | cons c cs ih =>
    simp only [takeB]
    by_cases h : utf8Len c ≤ n
    · simp only [h, if_true, byteLen]
      have := ih (n - utf8Len c)
      omega
    · simp [h, byteLen]

theorem utf8Len_pos (c : Ch) : 1 ≤ utf8Len c := by
  simp only [utf8Len]
  split
  · omega
  · split
    · omega
    · split <;> omega

theorem byteLen_takeB_of_boundary {s : Str} {n : Nat} (h : isBoundary s n = true) :
    byteLen (takeB n s) = n := by
  induction s generalizing n with
  | nil =>
    simp only [isBoundary, decide_eq_true_eq] at h
    simp [takeB, byteLen, h]
  | cons c cs ih =>
    simp only [isBoundary, Bool.or_eq_true, Bool.and_eq_true, decide_eq_true_eq] at h
    rcases h with h0 | ⟨hle, hb⟩
    · subst h0
      have hc : ¬ utf8Len c ≤ 0 := by have := utf8Len_pos c; omega
      simp [takeB, hc, byteLen]
    · simp only [takeB, hle, if_true, byteLen, ih hb]
      omega

theorem isBoundary_zero (s : Str) : isBoundary s 0 = true := by
  cases s <;> simp [isBoundary]

theorem isBoundary_byteLen (s : Str) : isBoundary s (byteLen s) = true := by
  induction s with
  | nil => simp [isBoundary, byteLen]
  | cons c cs ih =>
    simp only [isBoundary, byteLen, Bool.or_eq_true, Bool.and_eq_true, decide_eq_true_eq]
    right
    constructor
    · omega
    · simpa using ih

theorem isBoundary_append_byteLen_add {t : Str} {d : Nat} (h : isBoundary t d = true)
    (p : Str) : isBoundary (p ++ t) (byteLen p + d) = true := by
  induction p with
  | nil => simpa [byteLen]
  | cons c cs ih =>
    simp only [List.cons_append, isBoundary, byteLen, Bool.or_eq_true, Bool.and_eq_true,
      decide_eq_true_eq]
    right
    refine ⟨by omega, ?_⟩
    have : utf8Len c + byteLen cs + d - utf8Len c = byteLen cs + d := by omega
    rw [this]
    exact ih

theorem isBoundary_le {s : Str} {n : Nat} (h : isBoundary s n = true) : n ≤ byteLen s := by
  induction s generalizing n with
  | nil => simp only [isBoundary, decide_eq_true_eq] at h; simp [byteLen, h]
  | cons c cs ih =>
    simp only [isBoundary, Bool.or_eq_true, Bool.and_eq_true, decide_eq_true_eq] at h
    simp only [byteLen]
    rcases h with h0 | ⟨hle, hb⟩
    · omega
    · have := ih hb; omega

theorem build_width (idx c col : Nat) :
    (RenderItem.build idx c col).width = itemWidth c col := by
  simp only [itemWidth, RenderItem.build, RenderItem.padding]
  split
  · rfl
  · split
    · rfl
    · split <;> rfl

theorem itemWidth_pos {c : Ch} (h : isControl c = true ∨ 1 ≤ uwidth c) (col : Nat) :
    1 ≤ itemWidth c col := by
  simp only [itemWidth, RenderItem.build, RenderItem.padding]
  split
  · simp only [TAB_STOP]
    omega
  · rename_i htab
    split
    · simp
    · rename_i hctl
      split
      · simp only []
        split <;> simp
      · rename_i hc
        rcases h with h | h
        · exact absurd h (by simpa using hc)
        · simpa using h

theorem rxAux_ge (s : Str) (col : Nat) : col ≤ rxAux s col := by
  induction s generalizing col with
  | nil => simp [rxAux]
  | cons c cs ih =>
    simp only [rxAux]
    calc col ≤ col + (RenderItem.build 0 c col).width := by omega
      _ ≤ _ := ih _

theorem roundtrip_aux (s : Str) (cx col idx : Nat) (hb : isBoundary s cx = true)
    (hw : hasPosWidth s) :
    cxAux s (rxAux (takeB cx s) col) col idx = idx + cx := by
  induction s generalizing cx col idx with
  | nil =>
    simp only [isBoundary, decide_eq_true_eq] at hb
    subst hb
    simp [takeB, rxAux, cxAux]
  | cons c cs ih =>
    simp only [isBoundary, Bool.or_eq_true, Bool.and_eq_true, decide_eq_true_eq] at hb
    rcases hb with h0 | ⟨hle, hbs⟩
    · subst h0
      have hc : ¬ utf8Len c ≤ 0 := by have := utf8Len_pos c; omega
      simp [takeB, hc, rxAux, cxAux]
    · have hcw : 1 ≤ itemWidth c col :=
        itemWidth_pos (hw c (by simp)) col
      simp only [takeB, hle, if_true, rxAux]
      set w := (RenderItem.build 0 c col).width with hwdef
      have hw_eq : w = itemWidth c col := by rw [hwdef, build_width]
      have hge : col + w ≤ rxAux (takeB (cx - utf8Len c) cs) (col + w) := rxAux_ge _ _
      simp only [cxAux]
      rw [if_neg (by omega)]
      have hbw : (RenderItem.build idx c col).width = w := by
        rw [build_width, hw_eq]
      rw [hbw, if_neg (by omega)]
      have := ih (cx - utf8Len c) (col + w) (idx + utf8Len c) hbs
        (fun ch hch => hw ch (by simp [hch]))
      rw [this]
      omega

/-- C1 (amended): for every row and every character-boundary byte offset
`cx`, provided every character of the row has positive rendered width
(true in particular of all ASCII text, tabs and control characters;
false only for zero-width combining characters),
`get_cx_from_rx (get_rx_from_cx cx) = cx`. -/
theorem c1_rx_cx_roundtrip (s : Str) (cx : Nat) (hb : isBoundary s cx = true)
    (hw : hasPosWidth s) :
    get_cx_from_rx s (get_rx_from_cx s cx) = cx := by
  simpa using roundtrip_aux s cx 0 0 hb hw

/-- C1 witness: the amended round-trip at the ASCII no-tab row `"abc"`
and boundary offset 2. -/
theorem c1_rx_cx_roundtrip_witness :
    get_cx_from_rx [97, 98, 99] (get_rx_from_cx [97, 98, 99] 2) = 2 :=
  c1_rx_cx_roundtrip [97, 98, 99] 2 (by decide) (by unfold hasPosWidth; decide)

/-- C1 counterexample to the claim as stated: in the row
`'a'`, U+0300 (combining grave accent, display width 0), `'b'`,
the byte offset 3 is a character boundary, yet converting it to a
rendered column and back yields 1, not 3. -/
theorem c1_counterexample :
    isBoundary [97, 768, 98] 3 = true ∧
      get_cx_from_rx [97, 768, 98] (get_rx_from_cx [97, 768, 98] 3) = 1 ∧
      (1 : Nat) ≠ 3 := by
  refine ⟨by decide, by decide, by decide⟩

theorem build_idx (idx c col : Nat) : (RenderItem.build idx c col).idx = idx := by
  simp only [RenderItem.build, RenderItem.padding]
  split
  · rfl
  · split
    · rfl
    · split <;> rfl

/-- C4 (amended): every item yielded by the column-windowed render
iterator overlaps the window; an item straddling the left boundary is
emitted as padding of width `colE − start` (which equals the overlap
width unless the item also straddles the right boundary, in which case it
extends past the right edge of the window); an item inside the window on
the left but straddling the right boundary is emitted as padding of width
`end − colS` (exactly the overlap width); an item lying entirely inside
the window is emitted unchanged. -/
theorem c4_render_window_clipping (seg : Segment) (s : Str) (curCol idx : Nat)
    (sp : RenderSpan) (h : sp ∈ renderSpans seg s curCol idx) :
    (seg.origin < sp.colE ∧ sp.colS < seg.origin + seg.size) ∧
    sp.colE = sp.colS + sp.built.width ∧
    (sp.colS < seg.origin →
      sp.emitted = RenderItem.padding sp.built.idx (sp.colE - seg.origin)) ∧
    (seg.origin ≤ sp.colS → seg.origin + seg.size < sp.colE →
      sp.emitted = RenderItem.padding sp.built.idx (seg.origin + seg.size - sp.colS)) ∧
    (seg.origin ≤ sp.colS → sp.colE ≤ seg.origin + seg.size → sp.emitted = sp.built) := by
  induction s generalizing curCol idx with
  | nil => simp [renderSpans] at h
  | cons c rest ih =>
    simp only [renderSpans] at h
    split at h
    · simp at h
    · rename_i hbreak
      split at h
      · exact ih _ _ h
      · rename_i hskip
        split at h
        · rename_i hleft
          rcases List.mem_cons.1 h with rfl | h
          · refine ⟨⟨by simpa using hskip, by simpa using hbreak⟩, rfl, ?_, ?_, ?_⟩
            · intro _
              simp [build_idx]
            · intro h1 _
              simp at h1
              omega
            · intro h1 _
              simp at h1
              omega
          · exact ih _ _ h
        · rename_i hinl
          split at h
          · rename_i hright
            rcases List.mem_cons.1 h with rfl | h
            · refine ⟨⟨by simpa using hskip, by simpa using hbreak⟩, rfl, ?_, ?_, ?_⟩
              · intro h1
                simp at h1
                omega
              · intro _ _
                simp [build_idx]
              · intro _ h2
                simp at h2
                omega
            · exact ih _ _ h
          · rcases List.mem_cons.1 h with rfl | h
            · refine ⟨⟨by simpa using hskip, by simpa using hbreak⟩, rfl, ?_, ?_, ?_⟩
              · intro h1
                simp at h1
                omega
              · intro _ h2
                simp at h2
                omega
              · intro _ _
                rfl
            · exact ih _ _ h

/-- C4 witness: in the window `[0, 10)` over the row `"a"`, the single
item lies entirely inside the window and is emitted unchanged. -/
theorem c4_render_window_clipping_witness :
    (⟨0, 1, RenderItem.build 0 97 0, RenderItem.build 0 97 0⟩ : RenderSpan) ∈
        renderSpans ⟨0, 10⟩ [97] 0 0 ∧
      (⟨0, 1, RenderItem.build 0 97 0, RenderItem.build 0 97 0⟩ : RenderSpan).emitted =
        (⟨0, 1, RenderItem.build 0 97 0, RenderItem.build 0 97 0⟩ : RenderSpan).built :=
  ⟨by decide,
    (c4_render_window_clipping ⟨0, 10⟩ [97] 0 0 _ (by decide)).2.2.2.2
      (by decide) (by decide)⟩

/-- C4 counterexample to the claim as stated: a tab at column 0 has the
natural span `[0, 8)`; clipped to the window `[1, 3)` it straddles both
boundaries and is emitted as padding of width 7, not of the overlap
width `min 8 3 − max 0 1 = 2`, so the emitted item extends outside the
window. -/
theorem c4_counterexample :
    renderSpans ⟨1, 2⟩ [9] 0 0 =
        [⟨0, 8, RenderItem.padding 0 8, RenderItem.padding 0 7⟩] ∧
      ∃ sp ∈ renderSpans ⟨1, 2⟩ [9] 0 0,
        (sp.colS < 1 ∨ 1 + 2 < sp.colE) ∧
          sp.emitted.width ≠ min sp.colE (1 + 2) - max sp.colS 1 := by
  refine ⟨by decide, ?_⟩
  refine ⟨⟨0, 8, RenderItem.padding 0 8, RenderItem.padding 0 7⟩, by decide, by decide⟩

theorem prefix_length_le {p s : Str} (h : p.isPrefixOf s = true) : p.length ≤ s.length :=
  (List.isPrefixOf_iff_prefix.1 h).length_le

theorem findPrefixIdx_bound {pat s : Str} {i : Nat} (h : findPrefixIdx pat s = some i) :
    i + pat.length ≤ s.length := by
  induction s generalizing i with
  | nil =>
    simp only [findPrefixIdx] at h
    split at h
    · rename_i hp
      cases h
      simpa using prefix_length_le hp
    · cases h
  | cons c t ih =>
    simp only [findPrefixIdx] at h
    split at h
    · rename_i hp
      cases h
      simpa using prefix_length_le hp
    · simp only [Option.map_eq_some'] at h
      obtain ⟨j, hj, rfl⟩ := h
      have := ih hj
      simp only [List.length_cons]
      omega

theorem sleGo_bounds {h0 : Ch} {sle s : Str} {i : Nat} {esc : Bool} {n : Nat}
    (h : sleGo h0 sle s i esc = some n) : n ≤ i + s.length ∧ sle.length ≤ n := by
  induction s generalizing i esc with
  | nil => simp [sleGo] at h
  | cons c rest ih =>
    simp only [sleGo] at h
    split at h
    · split at h
      · have := ih h
        simp only [List.length_cons]
        omega
      · split at h
        · have := ih h
          simp only [List.length_cons]
          omega
        · split at h
          · rename_i hpre
            cases h
            have : sle.length ≤ 1 := by simpa using prefix_length_le hpre
            simp only [List.length_cons]
            omega
          · have := ih h
            simp only [List.length_cons]
            omega
    · have := ih h
      simp only [List.length_cons]
      omega

theorem byteLen_take_add_drop (n : Nat) (l : Str) :
    byteLen (l.take n) + byteLen (l.drop n) = byteLen l := by
  induction l generalizing n with
  | nil => simp [byteLen]
  | cons c cs ih =>
    cases n with
    | zero => simp [byteLen]
    | succ m =>
      simp only [List.take_succ_cons, List.drop_succ_cons, byteLen]
      have := ih m
      omega

theorem dropWhile_len_le (p : Ch → Bool) (l : Str) : (l.dropWhile p).length ≤ l.length := by
  induction l with
  | nil => simp
  | cons c cs ih =>
    simp only [List.dropWhile]
    split
    · exact le_trans ih (by simp)
    · simp

theorem pslc_eq {r : Rules} {chars : Str} {len : Nat}
    (h : parse_single_line_comment r chars = some len) : len = chars.length := by
  obtain ⟨scs, _, hf⟩ := List.exists_of_findSome?_eq_some h
  split at hf
  · cases hf; rfl
  · cases hf

theorem pmls_bounds {r : Rules} (hw : wfRules r) {chars : Str} {len : Nat} {mce : Str}
    (h : parse_multi_line_comment_start r chars = some (len, mce)) :
    1 ≤ len ∧ len ≤ chars.length ∧ mce ≠ [] := by
  obtain ⟨p, hp, hf⟩ := List.exists_of_findSome?_eq_some h
  split at hf
  · rename_i hpre
    cases hf
    have h1 := (hw.2.1 p hp).1
    have h2 := (hw.2.1 p hp).2
    have h3 := prefix_length_le hpre
    exact ⟨by cases hq : p.1 with
      | nil => exact absurd hq h1
      | cons a b => simp [hq], h3, h2⟩
  · cases hf

theorem psls_bounds {r : Rules} (hw : wfRules r) {chars : Str} {len : Nat} {sle : Str}
    (h : parse_string_literal_start r chars = some (len, sle)) :
    1 ≤ len ∧ len ≤ chars.length ∧ sle ≠ [] := by
  obtain ⟨p, hp, hf⟩ := List.exists_of_findSome?_eq_some h
  split at hf
  · rename_i hpre
    cases hf
    have h1 := (hw.2.2.1 p hp).1
    have h2 := (hw.2.2.1 p hp).2
    have h3 := prefix_length_le hpre
    exact ⟨by cases hq : p.1 with
      | nil => exact absurd hq h1
      | cons a b => simp [hq], h3, h2⟩
  · cases hf

theorem pnum_bounds {r : Rules} {chars : Str} {ps : Bool} {len : Nat}
    (h : parse_number r chars ps = some len) : 1 ≤ len ∧ len ≤ chars.length := by
  simp only [parse_number] at h
  split at h
  · cases h
  · split at h
    · cases h
    · rename_i hne
      simp only [Option.some.injEq] at h
      subst h
      have h1 : (chars.dropWhile isDigit).length ≤ chars.length :=
        dropWhile_len_le _ _
      have h2 : ((chars.dropWhile isDigit).dropWhile
          fun c => isDigit c || c = 0x2E).length ≤ (chars.dropWhile isDigit).length :=
        dropWhile_len_le _ _
      omega

theorem pkw_bounds {kws : List Str} (hkw : ∀ kw ∈ kws, kw ≠ []) {chars : Str} {ps : Bool}
    {len : Nat} (h : parse_keyword_common kws chars ps = some len) :
    1 ≤ len ∧ len ≤ chars.length := by
  simp only [parse_keyword_common] at h
  split at h
  · cases h
  · obtain ⟨kw, hkwm, hf⟩ := List.exists_of_findSome?_eq_some h
    split at hf
    · rename_i hpre
      split at hf
      · cases hf
        have h1 := hkw kw hkwm
        have h3 := prefix_length_le hpre
        exact ⟨by cases hq : kw with
          | nil => exact absurd hq h1
          | cons a b => simp [hq], h3⟩
      · cases hf
    · cases hf

theorem parse_step_bounds {r : Rules} (hw : wfRules r) {chars : Str} {ps : Bool}
    {op : Option Open} (ho : wfOpen op) (hne : chars ≠ []) :
    1 ≤ (r.parse chars ps op).2.1 ∧ (r.parse chars ps op).2.1 ≤ chars.length ∧
      wfOpen (r.parse chars ps op).2.2.2 := by
  have hlen : 1 ≤ chars.length := by
    cases chars with
    | nil => exact absurd rfl hne
    | cons a b => simp
  cases op with
  | some o =>
    cases o with
    | str sle =>
      cases sle with
      | nil => exact absurd rfl ho
      | cons hd tl =>
        rcases hpe : parse_string_literal_end (hd :: tl) chars with ⟨len, nop⟩
        simp only [Rules.parse, hpe]
        simp only [parse_string_literal_end, List.head?] at hpe
        rcases hg : sleGo hd (hd :: tl) chars 0 false with _ | n
        · rw [hg] at hpe
          cases hpe
          exact ⟨hlen, le_refl _, ho⟩
        · rw [hg] at hpe
          cases hpe
          have hb := sleGo_bounds hg
          exact ⟨by have := hb.2; simp only [List.length_cons] at this; omega,
            by simpa using hb.1, trivial⟩
    | comment mce =>
      rcases hpe : parse_multi_line_comment_end mce chars with ⟨len, nop⟩
      simp only [Rules.parse, hpe]
      simp only [parse_multi_line_comment_end] at hpe
      rcases hf : findPrefixIdx mce chars with _ | i
      · rw [hf] at hpe
        cases hpe
        exact ⟨hlen, le_refl _, ho⟩
      · rw [hf] at hpe
        cases hpe
        have hb := findPrefixIdx_bound hf
        have hml : 1 ≤ mce.length := by
          cases hq : mce with
          | nil => exact absurd hq ho
          | cons a b => simp [hq]
        exact ⟨by omega, hb, trivial⟩
  | none =>
    cases h1 : parse_single_line_comment r chars with
    | some len =>
      simp only [Rules.parse, h1]
      have := pslc_eq h1
      subst this
      exact ⟨hlen, le_refl _, trivial⟩
    | none =>
      cases h2 : parse_multi_line_comment_start r chars with
      | some p =>
        rcases p with ⟨len, mce⟩
        simp only [Rules.parse, h1, h2]
        have hb := pmls_bounds hw h2
        exact ⟨hb.1, hb.2.1, hb.2.2⟩
      | none =>
        cases h3 : parse_string_literal_start r chars with
        | some p =>
          rcases p with ⟨len, sle⟩
          simp only [Rules.parse, h1, h2, h3]
          have hb := psls_bounds hw h3
          exact ⟨hb.1, hb.2.1, hb.2.2⟩
        | none =>
          cases h4 : parse_number r chars ps with
          | some len =>
            simp only [Rules.parse, h1, h2, h3, h4]
            have hb := pnum_bounds h4
            exact ⟨hb.1, hb.2, trivial⟩
          | none =>
            cases h5 : parse_keyword_common r.keyword1 chars ps with
            | some len =>
              simp only [Rules.parse, h1, h2, h3, h4, h5]
              have hb := pkw_bounds hw.2.2.2.1 h5
              exact ⟨hb.1, hb.2, trivial⟩
            | none =>
              cases h6 : parse_keyword_common r.keyword2 chars ps with
              | some len =>
                simp only [Rules.parse, h1, h2, h3, h4, h5, h6]
                have hb := pkw_bounds hw.2.2.2.2 h6
                exact ⟨hb.1, hb.2, trivial⟩
              | none =>
                cases chars with
                | nil => exact absurd rfl hne
                | cons c cs =>
                  simp only [Rules.parse, h1, h2, h3, h4, h5, h6]
                  exact ⟨le_refl _, by simp, trivial⟩

theorem scan_complete {r : Rules} (hw : wfRules r) :
    ∀ (fuel : Nat) (chars : Str) (ps : Bool) (op : Option Open), wfOpen op →
      chars.length ≤ fuel →
      ∃ hl opEnd, scan fuel r chars ps op = some (hl, opEnd) ∧
        hl.length = byteLen chars := by
  intro fuel
  induction fuel with
  | zero =>
    intro chars ps op ho hle
    cases chars with
    | nil => exact ⟨[], op, rfl, by simp [byteLen]⟩
    | cons c cs => simp at hle
  | succ f ih =>
    intro chars ps op ho hle
    cases hch : chars with
    | nil => exact ⟨[], op, rfl, by simp [byteLen]⟩
    | cons c cs =>
      subst hch
      have hne : (c :: cs : Str) ≠ [] := by simp
      have hb := @parse_step_bounds r hw (c :: cs) ps op ho hne
      rcases hp : r.parse (c :: cs) ps op with ⟨hl, len, ps', op'⟩
      rw [hp] at hb
      simp only at hb
      have hlen2 : ((c :: cs : Str).drop len).length ≤ f := by
        simp only [List.length_drop]
        simp only [List.length_cons] at hle ⊢
        omega
      obtain ⟨rest, opEnd, hs, hrl⟩ := ih ((c :: cs : Str).drop len) ps' op' hb.2.2 hlen2
      refine ⟨List.replicate (byteLen ((c :: cs : Str).take len)) hl ++ rest, opEnd, ?_, ?_⟩
      · simp only [scan, hp, hs]
      · simp only [List.length_append, List.length_replicate, hrl]
        exact byteLen_take_add_drop len _

/-- C2: for every row text, well-formed rule table (all of the program's
tables are well-formed) and starting open state, when
`SyntaxState::update` actually recomputes (the state was not already
marked updated), it completes and the stored highlight tag sequence has
length exactly the byte length of the row's text — one tag per byte,
multi-byte characters repeating their tag once per byte (every `parse`
step consumes at least one character and emits one tag per consumed
byte). -/
theorem c2_highlight_per_byte (s : SyntaxState) (text : Str) (r : Rules)
    (prev next : Option SyntaxState) (hupd : s.updated = false) (hw : wfRules r)
    (ho : wfOpen (prev.bind (·.openSt))) :
    ∃ s' n', SyntaxState.update s text r prev next = some (s', n') ∧
      s'.highlight.length = byteLen text := by
  obtain ⟨hl, opEnd, hs, hlen⟩ :=
    scan_complete hw text.length text true (prev.bind (·.openSt)) ho (le_refl _)
  refine ⟨⟨true, opEnd, hl⟩,
    if s.openSt = opEnd then next else next.map SyntaxState.invalidate, ?_, hlen⟩
  simp [SyntaxState.update, hupd, hs]

/-- C2 witness: updating a fresh state over the row `"// hi"` with the
C rule table stores exactly 5 highlight tags. -/
theorem c2_highlight_per_byte_witness :
    ∃ s' n', SyntaxState.update SyntaxState.new [0x2F, 0x2F, 0x20, 0x68, 0x69] cRules
        none none = some (s', n') ∧
      s'.highlight.length = byteLen [0x2F, 0x2F, 0x20, 0x68, 0x69] :=
  c2_highlight_per_byte SyntaxState.new [0x2F, 0x2F, 0x20, 0x68, 0x69] cRules none none
    rfl (by refine ⟨?_, ?_, ?_, ?_, ?_⟩ <;> decide) trivial

/-- C3: `SyntaxState::update` is a no-op (both this row's and the next
row's states unchanged) when the state is already marked updated;
otherwise it rescans resuming from the previous row's open state, and
afterwards the next row's state is invalidated exactly when the terminal
open value differs from the one cached before the update — when it is
unchanged, the next row's state (in particular its updated flag) is left
untouched; only the single next row is ever touched. -/
theorem c3_update_single_hop (s : SyntaxState) (text : Str) (r : Rules)
    (prev next : Option SyntaxState) :
    (s.updated = true → SyntaxState.update s text r prev next = some (s, next)) ∧
    (∀ hl opEnd, s.updated = false →
      scan text.length r text true (prev.bind (·.openSt)) = some (hl, opEnd) →
      SyntaxState.update s text r prev next =
        some (⟨true, opEnd, hl⟩,
          if s.openSt = opEnd then next else next.map SyntaxState.invalidate)) := by
  constructor
  · intro h
    simp [SyntaxState.update, h]
  · intro hl opEnd h hs
    simp [SyntaxState.update, h, hs]

/-- C3 witness: an already-updated state is returned unchanged together
with the untouched next state; a fresh state over `"x"` with the default
table ends with unchanged open state, so the next row is not
invalidated. -/
theorem c3_update_single_hop_witness :
    SyntaxState.update ⟨true, none, []⟩ [0x78] defaultRules none (some ⟨true, none, []⟩) =
        some (⟨true, none, []⟩, some ⟨true, none, []⟩) ∧
      SyntaxState.update SyntaxState.new [0x78] defaultRules none (some ⟨true, none, []⟩) =
        some (⟨true, none, [Highlight.normal]⟩, some ⟨true, none, []⟩) :=
  ⟨(c3_update_single_hop ⟨true, none, []⟩ [0x78] defaultRules none
      (some ⟨true, none, []⟩)).1 rfl,
    (c3_update_single_hop SyntaxState.new [0x78] defaultRules none
      (some ⟨true, none, []⟩)).2 [Highlight.normal] none rfl (by decide)⟩

/-- C5: on the single byte ESC followed by end of stream, `read_input`
returns the key `[` with ctrl set and alt clear; on ESC followed by
`'a'`, the key `a` with alt set and ctrl clear; on ESC followed by ESC,
the key `[` with both ctrl and alt set. -/
theorem c5_esc_alt_decoding :
    readInputTop [0x1B] = .ok (some ⟨.char 0x5B, true, false⟩, ⟨none, []⟩) ∧
      readInputTop [0x1B, 0x61] = .ok (some ⟨.char 0x61, false, true⟩, ⟨none, []⟩) ∧
      readInputTop [0x1B, 0x1B] = .ok (some ⟨.char 0x5B, true, true⟩, ⟨none, []⟩) := by
  refine ⟨rfl, rfl, rfl⟩

theorem readChar_not_unexpected (st : DecSt) : notUnexpEsc (readChar st) = true := by
  rcases st with ⟨u, bs⟩
  cases u with
  | some ch => rfl
  | none =>
    cases bs with
    | nil => rfl
    | cons b rest =>
      simp only [readChar]
      cases utf8DecodeBytes (b :: rest.take (utf8Width b - 1)) <;> rfl

theorem escLoop_not_unexpected (fuel : Nat) (buf : List Ch) (st : DecSt) :
    notUnexpEsc (escLoop fuel buf st) = true := by
  induction fuel generalizing buf st with
  | zero => rfl
  | succ f ih =>
    have hrc := readChar_not_unexpected st
    rcases hc : readChar st with e | ⟨och, st'⟩
    · rw [hc] at hrc
      simp only [escLoop, hc]
      exact hrc
    · cases och with
      | none => simp only [escLoop, hc]; rfl
      | some ch =>
        simp only [escLoop, hc]
        split
        · rfl
        · exact ih _ _

/-- C8: `read_input` never produces the `UnexpectedEscapeSequence` error
(for any decoder state, byte stream and recursion fuel), and whenever
the accumulated ESC-`[` sequence misses the fixed lookup table, the
result is `Ok` of the ctrl-`[` input event. -/
theorem c8_no_unexpected_escape_error :
    (∀ (fuel : Nat) (st : DecSt), notUnexpEsc (readInput fuel st) = true) ∧
      (∀ (buf : List Ch) (st : DecSt), escKey buf = none →
        afterEsc buf st = .ok (some (Input.ctrlKey (.char 0x5B)), st)) := by
  constructor
  · intro fuel
    induction fuel with
    | zero => intro st; rfl
    | succ f ih =>
      intro st
      have hrc := readChar_not_unexpected st
      rcases hc : readChar st with e | ⟨och, st1⟩
      · rw [hc] at hrc
        simp only [readInput, hc]
        exact hrc
      · cases och with
        | none => simp only [readInput, hc]; rfl
        | some ch =>
          simp only [readInput, hc]
          split
          · have hrc1 := readChar_not_unexpected st1
            rcases hc1 : readChar st1 with e | ⟨och2, st2⟩
            · rw [hc1] at hrc1
              simp only [hc1]
              exact hrc1
            · cases och2 with
              | none => simp only [hc1]; rfl
              | some ch2 =>
                simp only [hc1]
                split
                · have hel := escLoop_not_unexpected f [0x1B, 0x5B] st2
                  rcases he : escLoop f [0x1B, 0x5B] st2 with e | ⟨buf, st3⟩
                  · rw [he] at hel
                    simp only [he]
                    exact hel
                  · simp only [he, afterEsc]
                    cases escKey buf <;> rfl
                · have hri := ih ⟨some ch2, st2.bytes⟩
                  rcases hr : readInput f ⟨some ch2, st2.bytes⟩ with e | ⟨oi, st3⟩
                  · rw [hr] at hri
                    simp only [hr]
                    exact hri
                  · cases oi <;> rfl
          · split <;> rfl
  · intro buf st h
    simp [afterEsc, h]

/-- C8 witness: the unrecognized sequence ESC `[` `Z` misses the table
and degrades to the ctrl-`[` event. -/
theorem c8_no_unexpected_escape_error_witness :
    escKey [0x1B, 0x5B, 0x5A] = none ∧
      afterEsc [0x1B, 0x5B, 0x5A] ⟨none, []⟩ =
        .ok (some (Input.ctrlKey (.char 0x5B)), ⟨none, []⟩) :=
  ⟨by decide, c8_no_unexpected_escape_error.2 [0x1B, 0x5B, 0x5A] ⟨none, []⟩ (by decide)⟩

/-- C9 (amended): for every row and character-boundary offset,
`insert_char`, `delete_char` (at an in-range offset) and `append_str`
(including of the empty string) always leave the highlight state
invalidated; `split` invalidates exactly when the split-off suffix is
nonempty — splitting at the very end of the row leaves the updated flag
untouched. -/
theorem c9_edits_invalidate (r : Row) (k : Nat) (ch : Ch) (s : Str)
    (_hb : isBoundary r.chars k = true) :
    (r.insert_char k ch).syntax_state.updated = false ∧
      (k < byteLen r.chars → (r.delete_char k).syntax_state.updated = false) ∧
      (r.append_str s).syntax_state.updated = false ∧
      (dropB k r.chars ≠ [] → (r.split k).1.syntax_state.updated = false) ∧
      (dropB k r.chars = [] → (r.split k).1.syntax_state.updated = r.syntax_state.updated) := by
  refine ⟨rfl, fun _ => rfl, rfl, ?_, ?_⟩
  · intro h
    simp [Row.split, SyntaxState.invalidate, List.isEmpty_iff, h]
  · intro h
    simp [Row.split, List.isEmpty_iff, h]

/-- C9 witness: the amended statement at the row `"a"` with a fresh
state, boundary offset 0. -/
theorem c9_edits_invalidate_witness :
    isBoundary ([97] : Str) 0 = true ∧
      ((⟨[97], SyntaxState.new⟩ : Row).insert_char 0 98).syntax_state.updated = false :=
  ⟨by decide, (c9_edits_invalidate ⟨[97], SyntaxState.new⟩ 0 98 [] (by decide)).1⟩

/-- C9 counterexample to the claim as stated: splitting the row `"a"`
(updated highlight state) at the character-boundary offset 1 — the very
end of the row — returns an empty suffix and leaves the updated flag
`true`, so `split` does not always invalidate the highlight state. -/
theorem c9_counterexample :
    isBoundary ([97] : Str) 1 = true ∧
      ((⟨[97], ⟨true, none, [Highlight.normal]⟩⟩ : Row).split 1).1.syntax_state.updated
        = true := by
  refine ⟨by decide, by decide⟩

/-- C7: after `scroll`, with a positive viewport: a cursor row above the
origin pulls the origin up to it; a cursor row at or past
`origin + rows` pushes the origin to `cursor − rows + 1`; symmetrically
for the horizontal origin with the cursor's rendered column; and a
cursor already visible in both dimensions leaves the origin completely
unchanged. -/
theorem c7_scroll_minimal (b : TextBuffer) (hr : 1 ≤ b.render_rect.size.rows)
    (hc : 1 ≤ b.render_rect.size.cols) :
    (b.c.y < b.render_rect.origin.y → (b.scroll).1.render_rect.origin.y = b.c.y) ∧
      (b.render_rect.origin.y + b.render_rect.size.rows ≤ b.c.y →
        (b.scroll).1.render_rect.origin.y = b.c.y + 1 - b.render_rect.size.rows) ∧
      (b.curRx < b.render_rect.origin.x → (b.scroll).1.render_rect.origin.x = b.curRx) ∧
      (b.render_rect.origin.x + b.render_rect.size.cols ≤ b.curRx →
        (b.scroll).1.render_rect.origin.x = b.curRx + 1 - b.render_rect.size.cols) ∧
      (b.render_rect.origin.y ≤ b.c.y →
        b.c.y < b.render_rect.origin.y + b.render_rect.size.rows →
        b.render_rect.origin.x ≤ b.curRx →
        b.curRx < b.render_rect.origin.x + b.render_rect.size.cols →
        (b.scroll).1.render_rect.origin = b.render_rect.origin) := by
  simp only [TextBuffer.scroll]
  refine ⟨?_, ?_, ?_, ?_, ?_⟩
  · intro h
    split
    · split <;> omega
    · omega
  · intro h
    split
    · omega
    · split
      · omega
      · omega
  · intro h
    split
    · split <;> omega
    · omega
  · intro h
    split
    · omega
    · split <;> omega
  · intro h1 h2 h3 h4
    have e1 : (if b.c.y < b.render_rect.origin.y then b.c.y else b.render_rect.origin.y)
        = b.render_rect.origin.y := by split <;> omega
    have e2 : (if b.curRx < b.render_rect.origin.x then b.curRx else b.render_rect.origin.x)
        = b.render_rect.origin.x := by split <;> omega
    simp only [e1, e2]
    have e3 : ¬ (b.render_rect.origin.y + (b.render_rect.size.rows - 1) < b.c.y) := by omega
    have e4 : ¬ (b.render_rect.origin.x + (b.render_rect.size.cols - 1) < b.curRx) := by omega
    simp only [e3, e4, if_false]

/-- C7 witness: a cursor five rows below a 2-row viewport at the origin
scrolls the origin down to row 4. -/
theorem c7_scroll_minimal_witness :
    ((⟨⟨0, 5⟩, [], false, ⟨⟨0, 0⟩, ⟨2, 2⟩⟩⟩ : TextBuffer).scroll).1.render_rect.origin.y
      = 5 + 1 - 2 :=
  (c7_scroll_minimal ⟨⟨0, 5⟩, [], false, ⟨⟨0, 0⟩, ⟨2, 2⟩⟩⟩ (by decide) (by decide)).2.1
    (by decide)

theorem get?_append_cons (pre : List α) (x : α) (suf : List α) :
    (pre ++ x :: suf).get? pre.length = some x := by
  induction pre with
  | nil => rfl
  | cons a t ih => simpa using ih

theorem get?_append_cons_succ (pre : List α) (x y : α) (suf : List α) :
    (pre ++ x :: y :: suf).get? (pre.length + 1) = some y := by
  induction pre with
  | nil => rfl
  | cons a t ih => simpa using ih

theorem set_append_cons (pre : List α) (x : α) (suf : List α) (v : α) :
    (pre ++ x :: suf).set pre.length v = pre ++ v :: suf := by
  induction pre with
  | nil => rfl
  | cons a t ih => simp [List.set, ih]

theorem insertIdx_append_cons (pre : List α) (x : α) (suf : List α) (v : α) :
    List.insertIdx (pre.length + 1) v (pre ++ x :: suf) = pre ++ x :: v :: suf := by
  induction pre with
  | nil => rfl
  | cons a t ih => simpa [List.insertIdx_succ_cons] using ih

theorem eraseIdx_append_cons_cons (pre : List α) (x y : α) (suf : List α) :
    (pre ++ x :: y :: suf).eraseIdx (pre.length + 1) = pre ++ x :: suf := by
  induction pre with
  | nil => rfl
  | cons a t ih => simp [List.eraseIdx, ih]

theorem get?_some_lt {l : List α} {n : Nat} {a : α} (h : l.get? n = some a) :
    n < l.length := by
  induction l generalizing n with
  | nil => simp [List.get?] at h
  | cons b t ih =>
    cases n with
    | zero => simp
    | succ m =>
      simp only [List.get?] at h
      have := ih h
      simp only [List.length_cons]
      omega

theorem decomp_at (l : List α) (y : Nat) (h : y < l.length) :
    ∃ pre x suf, l = pre ++ x :: suf ∧ pre.length = y ∧ l.get? y = some x := by
  induction l generalizing y with
  | nil => simp at h
  | cons a t ih =>
    cases y with
    | zero => exact ⟨[], a, t, rfl, rfl, rfl⟩
    | succ m =>
      obtain ⟨pre, x, suf, he, hl, hg⟩ := ih m (by simpa using h)
      exact ⟨a :: pre, x, suf, by simp [he], by simp [hl], by simpa using hg⟩

theorem dropB_eq_nil_of_le {t : Str} {n : Nat} (h : byteLen t ≤ n) : dropB n t = [] := by
  induction t generalizing n with
  | nil => simp [dropB]
  | cons c cs ih =>
    simp only [byteLen] at h
    simp only [dropB]
    rw [if_pos (by omega)]
    exact ih (by omega)

theorem takeB_zero (s : Str) : takeB 0 s = [] := by
  cases s with
  | nil => rfl
  | cons c cs =>
    simp only [takeB]
    rw [if_neg (by have := utf8Len_pos c; omega)]

/-- C6 (amended): for every TextBuffer whose cursor sits at a
character-boundary offset of an existing row, provided the text after
the cursor does not end in newline/carriage-return characters (which
`Row::new` strips from the freshly created row), `insert_newline`
followed immediately by `delete_back_char` restores the original row
sequence's texts unchanged. -/
theorem c6_split_merge_roundtrip (b : TextBuffer) (r : Row)
    (hr : b.rows.get? b.c.y = some r)
    (hb : isBoundary r.chars b.c.x = true)
    (hnl : stripTrailingNl (dropB b.c.x r.chars) = dropB b.c.x r.chars) :
    ∃ b', b.insert_newline.bind TextBuffer.delete_back_char = some b' ∧
      b'.rows.map Row.chars = b.rows.map Row.chars := by
  rcases b with ⟨⟨x, y⟩, rows, dirty, rect⟩
  simp only at hr hb hnl ⊢
  have hy : y < rows.length := get?_some_lt hr
  obtain ⟨pre, x0, suf, hsplit, hplen, hget⟩ := decomp_at rows y hy
  subst hsplit
  rw [hget] at hr
  have hx0 : x0 = r := Option.some.inj hr
  subst hx0
  subst hplen
  have hbt : byteLen (takeB x x0.chars) = x := byteLen_takeB_of_boundary hb
  have hdt : dropB x (takeB x x0.chars) = [] := dropB_eq_nil_of_le (le_of_eq hbt)
  have e1 : TextBuffer.insert_newline ⟨⟨x, pre.length⟩, pre ++ x0 :: suf, dirty, rect⟩ =
      some ⟨⟨0, pre.length + 1⟩,
        pre ++ Row.mk (takeB x x0.chars)
            (if (dropB x x0.chars).isEmpty then x0.syntax_state
             else x0.syntax_state.invalidate) ::
          Row.new (dropB x x0.chars) :: suf, true, rect⟩ := by
    simp only [TextBuffer.insert_newline, hget, Row.split, TextBuffer.insert_row,
      set_append_cons, insertIdx_append_cons, TextBuffer.move_cursor, get?_append_cons,
      hdt, List.head?_nil, Option.map_some']
  have e2 : TextBuffer.delete_back_char ⟨⟨0, pre.length + 1⟩,
      pre ++ Row.mk (takeB x x0.chars)
          (if (dropB x x0.chars).isEmpty then x0.syntax_state
           else x0.syntax_state.invalidate) ::
        Row.new (dropB x x0.chars) :: suf, true, rect⟩ =
      some ⟨⟨x, pre.length⟩,
        pre ++ Row.mk (takeB x x0.chars ++ dropB x x0.chars)
            ((if (dropB x x0.chars).isEmpty then x0.syntax_state
              else x0.syntax_state.invalidate).invalidate) :: suf, true, rect⟩ := by
    simp only [TextBuffer.delete_back_char, TextBuffer.move_cursor,
      get?_append_cons_succ, Option.bind, takeB_zero, List.getLast?_nil]
    rw [if_pos (by omega)]
    simp only [Nat.add_sub_cancel, get?_append_cons, hbt]
    simp only [TextBuffer.delete_char, List.length_append, List.length_cons]
    rw [if_neg (by omega)]
    simp only [get?_append_cons, hbt]
    rw [if_neg (by omega)]
    simp only [get?_append_cons_succ, Row.append_str, Row.new, hnl,
      set_append_cons, TextBuffer.delete_row, eraseIdx_append_cons_cons]
  refine ⟨⟨⟨x, pre.length⟩,
    pre ++ Row.mk (takeB x x0.chars ++ dropB x x0.chars)
        ((if (dropB x x0.chars).isEmpty then x0.syntax_state
          else x0.syntax_state.invalidate).invalidate) :: suf, true, rect⟩, ?_, ?_⟩
  · rw [e1]
    simpa using e2
  · simp [takeB_append_dropB]

/-- C6 witness: the amended round trip on the single row `"ab"` with the
cursor at boundary offset 1. -/
theorem c6_split_merge_roundtrip_witness :
    ∃ b', (TextBuffer.insert_newline
          ⟨⟨1, 0⟩, [⟨[97, 98], SyntaxState.new⟩], false, ⟨⟨0, 0⟩, ⟨4, 4⟩⟩⟩).bind
        TextBuffer.delete_back_char = some b' ∧
      b'.rows.map Row.chars =
        (⟨⟨1, 0⟩, [⟨[97, 98], SyntaxState.new⟩], false,
          ⟨⟨0, 0⟩, ⟨4, 4⟩⟩⟩ : TextBuffer).rows.map Row.chars :=
  c6_split_merge_roundtrip ⟨⟨1, 0⟩, [⟨[97, 98], SyntaxState.new⟩], false, ⟨⟨0, 0⟩, ⟨4, 4⟩⟩⟩
    ⟨[97, 98], SyntaxState.new⟩ (by decide) (by decide) (by decide)

/-- C6 counterexample to the claim as stated: a row consisting of the
single newline character, cursor at boundary offset 0 of this existing
row.  `Row::new` strips the trailing newline from the split-off text, so
the round trip yields the empty row instead of restoring it. -/
theorem c6_counterexample :
    ((TextBuffer.insert_newline
          ⟨⟨0, 0⟩, [⟨[0xA], SyntaxState.new⟩], false, ⟨⟨0, 0⟩, ⟨4, 4⟩⟩⟩).bind
        TextBuffer.delete_back_char).map (fun b => b.rows.map Row.chars) =
      some [[]] ∧ (some [[]] : Option (List Str)) ≠ some [[0xA]] := by
  refine ⟨by decide, by decide⟩

theorem byteLen_append (a b : Str) : byteLen (a ++ b) = byteLen a + byteLen b := by
  induction a with
  | nil => simp [byteLen]
  | cons c cs ih =>
    rw [List.cons_append]
    simp only [byteLen]
    rw [ih]
    omega

theorem boundary_prefix_extend {t : Str} {d : Nat} (h : isBoundary t d = true) (u : Str) :
    isBoundary (t ++ u) d = true := by
  induction t generalizing d with
  | nil =>
    simp only [isBoundary, decide_eq_true_eq] at h
    subst h
    simpa using isBoundary_zero u
  | cons c cs ih =>
    simp only [isBoundary, Bool.or_eq_true, Bool.and_eq_true, decide_eq_true_eq] at h ⊢
    rcases h with h0 | ⟨hle, hb⟩
    · exact Or.inl h0
    · exact Or.inr ⟨hle, ih hb⟩

theorem cxAux_boundary (s : Str) (rx col : Nat) (p : Str) :
    isBoundary (p ++ s) (cxAux s rx col (byteLen p)) = true := by
  induction s generalizing col p with
  | nil =>
    simp only [cxAux, List.append_nil]
    exact isBoundary_byteLen p
  | cons c cs ih =>
    simp only [cxAux]
    split
    · have := isBoundary_append_byteLen_add (isBoundary_zero (c :: cs)) p
      simpa using this
    · split
      · rw [build_idx]
        have := isBoundary_append_byteLen_add (isBoundary_zero (c :: cs)) p
        simpa using this
      · have hres := ih (col + (RenderItem.build (byteLen p) c col).width) (p ++ [c])
        rw [byteLen_append] at hres
        simp only [byteLen] at hres
        have harr : (p ++ [c]) ++ cs = p ++ c :: cs := by simp
        rw [harr] at hres
        have harg : byteLen p + (utf8Len c + 0) = byteLen p + utf8Len c := by omega
        rw [harg] at hres
        exact hres

theorem getCx_boundary (s : Str) (rx : Nat) :
    isBoundary s (get_cx_from_rx s rx) = true := by
  have := cxAux_boundary s rx 0 []
  simpa [get_cx_from_rx, byteLen] using this

theorem boundary_insert {s : Str} {x : Nat} (h : isBoundary s x = true) (t : Str) :
    isBoundary (takeB x s ++ t) x = true := by
  have hb := byteLen_takeB_of_boundary h
  have := isBoundary_append_byteLen_add (isBoundary_zero t) (takeB x s)
  rw [hb] at this
  simpa using this

theorem boundary_dropB_add {s : Str} {a d : Nat} (ha : isBoundary s a = true)
    (hd : isBoundary (dropB a s) d = true) : isBoundary s (a + d) = true := by
  have hb := byteLen_takeB_of_boundary ha
  have := isBoundary_append_byteLen_add hd (takeB a s)
  rw [hb, takeB_append_dropB] at this
  exact this

theorem boundary_takeB_prefix {s : Str} {a d : Nat}
    (h : isBoundary (takeB a s) d = true) : isBoundary s d = true := by
  have := boundary_prefix_extend h (dropB a s)
  rwa [takeB_append_dropB] at this

theorem takeB_getLast_boundary {s : Str} {x : Nat} {ch : Ch}
    (hb : isBoundary s x = true) (hl : (takeB x s).getLast? = some ch) :
    isBoundary s (x - utf8Len ch) = true := by
  have hne : takeB x s ≠ [] := by
    intro hnil
    rw [hnil] at hl
    cases hl
  have hdec : (takeB x s).dropLast ++ [(takeB x s).getLast hne] = takeB x s :=
    List.dropLast_append_getLast hne
  have hch : (takeB x s).getLast hne = ch := by
    have := List.getLast?_eq_getLast (takeB x s) hne
    rw [this] at hl
    exact Option.some.inj hl
  rw [hch] at hdec
  have hbt := byteLen_takeB_of_boundary hb
  have hlen : byteLen (takeB x s).dropLast + utf8Len ch = x := by
    have := byteLen_append (takeB x s).dropLast [ch]
    rw [hdec] at this
    simp only [byteLen] at this
    omega
  have hstep : isBoundary ((takeB x s).dropLast ++ (ch :: dropB x s))
      (byteLen (takeB x s).dropLast) = true := by
    have := isBoundary_append_byteLen_add (isBoundary_zero (ch :: dropB x s))
      (takeB x s).dropLast
    simpa using this
  have harr : (takeB x s).dropLast ++ (ch :: dropB x s) = s := by
    have : (takeB x s).dropLast ++ [ch] ++ dropB x s = s := by
      rw [hdec, takeB_append_dropB]
    simpa using this
  rw [harr] at hstep
  have hx : x - utf8Len ch = byteLen (takeB x s).dropLast := by omega
  rw [hx]
  exact hstep

theorem dropB_head_boundary {s : Str} {x : Nat} {ch : Ch}
    (hb : isBoundary s x = true) (hh : (dropB x s).head? = some ch) :
    isBoundary s (x + utf8Len ch) = true := by
  have hbt := byteLen_takeB_of_boundary hb
  rcases hd : dropB x s with _ | ⟨c, rest⟩
  · rw [hd] at hh
    cases hh
  · rw [hd] at hh
    have hc : c = ch := by
      simpa using hh
    subst hc
    have hstep : isBoundary ((takeB x s ++ [c]) ++ rest)
        (byteLen (takeB x s ++ [c])) = true := by
      have := isBoundary_append_byteLen_add (isBoundary_zero rest) (takeB x s ++ [c])
      simpa using this
    have harr : (takeB x s ++ [c]) ++ rest = s := by
      have := takeB_append_dropB x s
      rw [hd] at this
      simpa using this
    rw [harr] at hstep
    have hlen : byteLen (takeB x s ++ [c]) = x + utf8Len c := by
      rw [byteLen_append, hbt]
      simp [byteLen]
    rw [hlen] at hstep
    exact hstep

theorem matchIndicesHead_boundary {q t : Str} {d : Nat}
    (h : matchIndicesHead q t = some d) : isBoundary t d = true := by
  simp only [matchIndicesHead, Option.map_eq_some'] at h
  obtain ⟨i, _, rfl⟩ := h
  have hstep := isBoundary_append_byteLen_add (isBoundary_zero (t.drop i)) (t.take i)
  rw [List.take_append_drop] at hstep
  simpa using hstep

theorem rmatchIndicesHead_boundary {q t : Str} {d : Nat}
    (h : rmatchIndicesHead q t = some d) : isBoundary t d = true := by
  simp only [rmatchIndicesHead, Option.map_eq_some'] at h
  obtain ⟨i, _, rfl⟩ := h
  have hstep := isBoundary_append_byteLen_add (isBoundary_zero (t.drop i)) (t.take i)
  rw [List.take_append_drop] at hstep
  simpa using hstep

theorem get?_set_self (l : List α) (n : Nat) (v : α) (h : n < l.length) :
    (l.set n v).get? n = some v := by
  induction l generalizing n with
  | nil => simp at h
  | cons a t ih =>
    cases n with
    | zero => rfl
    | succ m =>
      simp only [List.set, List.get?]
      exact ih m (by simpa using h)

theorem insertIdx_get?_lt (l : List α) (n k : Nat) (v : α) (h : k < n) :
    (List.insertIdx n v l).get? k = l.get? k := by
  induction l generalizing n k with
  | nil =>
    cases n with
    | zero => omega
    | succ m => simp [List.insertIdx_succ_nil]
  | cons a t ih =>
    cases n with
    | zero => omega
    | succ m =>
      rw [List.insertIdx_succ_cons]
      cases k with
      | zero => rfl
      | succ j =>
        simp only [List.get?]
        exact ih m j (by omega)

theorem insertIdx_length_self (l : List α) (v : α) :
    List.insertIdx l.length v l = l ++ [v] := by
  induction l with
  | nil => rfl
  | cons a t ih => simp [List.insertIdx_succ_cons, ih]

theorem eraseIdx_get?_lt (l : List α) (n k : Nat) (h : k < n) :
    (l.eraseIdx n).get? k = l.get? k := by
  induction l generalizing n k with
  | nil => simp [List.eraseIdx]
  | cons a t ih =>
    cases n with
    | zero => omega
    | succ m =>
      simp only [List.eraseIdx]
      cases k with
      | zero => rfl
      | succ j =>
        simp only [List.get?]
        exact ih m j (by omega)

theorem get?_length_self (l : List α) : l.get? l.length = none := by
  induction l with
  | nil => rfl
  | cons a t ih => exact ih

theorem getLast?_get? {l : List α} {a : α} (h : l.getLast? = some a) :
    l.get? (l.length - 1) = some a := by
  induction l with
  | nil => cases h
  | cons b t ih =>
    cases t with
    | nil => simpa using h
    | cons c u =>
      rw [List.getLast?_cons_cons] at h
      have := ih h
      simpa using this

theorem cursorOK_row {b : TextBuffer} {r : Row} (h : cursorOK b = true)
    (hr : b.rows.get? b.c.y = some r) : isBoundary r.chars b.c.x = true := by
  unfold cursorOK at h
  rw [hr] at h
  simpa using h

theorem cursorOK_of_row {b : TextBuffer} {r : Row} (hr : b.rows.get? b.c.y = some r)
    (hb : isBoundary r.chars b.c.x = true) : cursorOK b = true := by
  unfold cursorOK
  rw [hr]
  simpa using hb

theorem cursorOK_zero {b : TextBuffer} (hx : b.c.x = 0) : cursorOK b = true := by
  unfold cursorOK
  rw [hx]
  exact isBoundary_zero _

theorem yScrollMove_cursorOK (b : TextBuffer) (dy : Nat) (isUp : Bool) :
    cursorOK (b.yScrollMove dy isUp) = true := by
  unfold TextBuffer.yScrollMove cursorOK
  simp only
  cases hg : b.rows.get? (if isUp then b.c.y - dy
      else if b.rows.length - 1 ≤ b.c.y + dy then b.rows.length - 1 else b.c.y + dy) with
  | some r =>
    simp only [hg, Option.map_some', Option.getD_some]
    exact getCx_boundary r.chars b.curRx
  | none =>
    simp only [hg, Option.map_none', Option.getD_none]
    exact isBoundary_zero []

theorem move_left_cursorOK {b b' : TextBuffer} (h : cursorOK b = true)
    (hm : b.move_cursor .left = some b') : cursorOK b' = true := by
  simp only [TextBuffer.move_cursor] at hm
  cases hg : b.rows.get? b.c.y with
  | some r =>
    rw [hg] at hm
    simp only [Option.bind] at hm
    cases hl : (takeB b.c.x r.chars).getLast? with
    | some ch =>
      rw [hl] at hm
      cases hm
      exact cursorOK_of_row (b := ⟨⟨b.c.x - utf8Len ch, b.c.y⟩, b.rows, b.is_dirty,
          b.render_rect⟩) hg
        (takeB_getLast_boundary (cursorOK_row h hg) hl)
    | none =>
      rw [hl] at hm
      by_cases hy : 0 < b.c.y
      · rw [if_pos hy] at hm
        cases hg2 : b.rows.get? (b.c.y - 1) with
        | some r2 =>
          rw [hg2] at hm
          cases hm
          exact cursorOK_of_row (b := ⟨⟨byteLen r2.chars, b.c.y - 1⟩, b.rows, b.is_dirty,
              b.render_rect⟩) hg2 (isBoundary_byteLen r2.chars)
        | none =>
          rw [hg2] at hm
          cases hm
      · rw [if_neg hy] at hm
        cases hm
        exact h
  | none =>
    rw [hg] at hm
    simp only [Option.bind] at hm
    by_cases hy : 0 < b.c.y
    · rw [if_pos hy] at hm
      cases hg2 : b.rows.get? (b.c.y - 1) with
      | some r2 =>
        rw [hg2] at hm
        cases hm
        exact cursorOK_of_row (b := ⟨⟨byteLen r2.chars, b.c.y - 1⟩, b.rows, b.is_dirty,
            b.render_rect⟩) hg2 (isBoundary_byteLen r2.chars)
      | none =>
        rw [hg2] at hm
        cases hm
    · rw [if_neg hy] at hm
      cases hm
      exact h

theorem move_right_cursorOK {b b' : TextBuffer} (h : cursorOK b = true)
    (hm : b.move_cursor .right = some b') : cursorOK b' = true := by
  simp only [TextBuffer.move_cursor] at hm
  cases hg : b.rows.get? b.c.y with
  | some r =>
    simp only [hg] at hm
    cases hh : (dropB b.c.x r.chars).head? with
    | some ch =>
      rw [hh] at hm
      cases hm
      exact cursorOK_of_row (b := ⟨⟨b.c.x + utf8Len ch, b.c.y⟩, b.rows, b.is_dirty,
          b.render_rect⟩) hg (dropB_head_boundary (cursorOK_row h hg) hh)
    | none =>
      rw [hh] at hm
      cases hm
      exact cursorOK_zero rfl
  | none =>
    rw [hg] at hm
    cases hm
    exact h

theorem move_cursor_cursorOK {b b' : TextBuffer} (h : cursorOK b = true)
    (mv : CursorMove) (hm : b.move_cursor mv = some b') : cursorOK b' = true := by
  cases mv with
  | left => exact move_left_cursorOK h hm
  | right => exact move_right_cursorOK h hm
  | home =>
    simp only [TextBuffer.move_cursor] at hm
    cases hm
    exact cursorOK_zero rfl
  | rowEnd =>
    simp only [TextBuffer.move_cursor] at hm
    cases hg : b.rows.get? b.c.y with
    | some r =>
      rw [hg] at hm
      cases hm
      exact cursorOK_of_row (b := ⟨⟨byteLen r.chars, b.c.y⟩, b.rows, b.is_dirty,
          b.render_rect⟩) hg (isBoundary_byteLen r.chars)
    | none =>
      rw [hg] at hm
      cases hm
      exact h
  | up =>
    simp only [TextBuffer.move_cursor] at hm
    cases hm
    exact yScrollMove_cursorOK b 1 true
  | down =>
    simp only [TextBuffer.move_cursor] at hm
    cases hm
    exact yScrollMove_cursorOK b 1 false
  | pageUp =>
    simp only [TextBuffer.move_cursor] at hm
    cases hm
    exact yScrollMove_cursorOK b _ true
  | pageDown =>
    simp only [TextBuffer.move_cursor] at hm
    cases hm
    exact yScrollMove_cursorOK b _ false
  | bufferHome =>
    simp only [TextBuffer.move_cursor] at hm
    cases hm
    exact cursorOK_zero rfl
  | bufferEnd =>
    simp only [TextBuffer.move_cursor] at hm
    cases hg : b.rows.getLast? with
    | some r =>
      rw [hg] at hm
      cases hm
      exact cursorOK_of_row (b := ⟨⟨byteLen r.chars, b.rows.length - 1⟩, b.rows, b.is_dirty,
          b.render_rect⟩) (getLast?_get? hg) (isBoundary_byteLen r.chars)
    | none =>
      rw [hg] at hm
      cases hm
      exact h

theorem cursorOK_none {b : TextBuffer} (h : cursorOK b = true)
    (hr : b.rows.get? b.c.y = none) : b.c.x = 0 := by
  unfold cursorOK at h
  rw [hr] at h
  simpa [isBoundary] using h

theorem boundary_takeB_end {s : Str} {x : Nat} (h : isBoundary s x = true) :
    isBoundary (takeB x s) x = true := by
  have := isBoundary_byteLen (takeB x s)
  rwa [byteLen_takeB_of_boundary h] at this

theorem insert_tail_cursorOK {t b' : TextBuffer} (h2 : cursorOK t = true)
    (hm : (t.move_cursor .right).map
      (fun b3 => { b3 with is_dirty := true }) = some b') :
    cursorOK b' = true := by
  cases hmc : t.move_cursor .right with
  | none =>
    rw [hmc] at hm
    cases hm
  | some b3 =>
    rw [hmc] at hm
    cases hm
    have h3 := move_right_cursorOK h2 hmc
    unfold cursorOK at h3 ⊢
    simpa using h3

theorem insert_char_cursorOK {b b' : TextBuffer} (h : cursorOK b = true) (ch : Ch)
    (hm : b.insert_char ch = some b') : cursorOK b' = true := by
  unfold TextBuffer.insert_char at hm
  by_cases hy : b.c.y = b.rows.length
  · rw [if_pos hy] at hm
    have hg1 : (b.append_row []).rows.get? (b.append_row []).c.y = some (Row.new []) := by
      show (List.insertIdx b.rows.length (Row.new []) b.rows).get? b.c.y = some (Row.new [])
      rw [insertIdx_length_self, hy]
      exact get?_append_cons b.rows (Row.new []) []
    simp only [hg1] at hm
    have hx0 : b.c.x = 0 := cursorOK_none h (by rw [hy]; exact get?_length_self b.rows)
    refine insert_tail_cursorOK ?_ hm
    refine cursorOK_of_row (get?_set_self _ _ _ (get?_some_lt hg1)) ?_
    show isBoundary ((Row.new []).insert_char b.c.x ch).chars b.c.x = true
    rw [hx0]
    exact isBoundary_zero _
  · rw [if_neg hy] at hm
    cases hg : b.rows.get? b.c.y with
    | none =>
      simp only [hg] at hm
      cases hm
    | some r =>
      simp only [hg] at hm
      refine insert_tail_cursorOK ?_ hm
      refine cursorOK_of_row (get?_set_self _ _ _ (get?_some_lt hg)) ?_
      exact boundary_insert (cursorOK_row h hg) _

theorem insert_newline_cursorOK {b b' : TextBuffer} (h : cursorOK b = true)
    (hm : b.insert_newline = some b') : cursorOK b' = true := by
  unfold TextBuffer.insert_newline at hm
  cases hg : b.rows.get? b.c.y with
  | none =>
    simp only [hg] at hm
    exact insert_tail_cursorOK (t := b.append_row [])
      (cursorOK_zero (show (b.append_row []).c.x = 0 from cursorOK_none (b := b) h hg)) hm
  | some r =>
    simp only [hg, Row.split, TextBuffer.insert_row] at hm
    refine insert_tail_cursorOK ?_ hm
    refine cursorOK_of_row (r := ⟨takeB b.c.x r.chars,
      if (dropB b.c.x r.chars).isEmpty then r.syntax_state
      else r.syntax_state.invalidate⟩) ?_ ?_
    · show (List.insertIdx (b.c.y + 1) _ (b.rows.set b.c.y _)).get? b.c.y = _
      rw [insertIdx_get?_lt _ _ _ _ (by omega)]
      exact get?_set_self _ _ _ (get?_some_lt hg)
    · exact boundary_takeB_end (cursorOK_row h hg)

theorem delete_char_cursorOK {b b' : TextBuffer} (h : cursorOK b = true)
    (hm : b.delete_char = some b') : cursorOK b' = true := by
  unfold TextBuffer.delete_char at hm
  by_cases hlen : b.rows.length < b.c.y + 1
  · rw [if_pos hlen] at hm
    cases hm
  · rw [if_neg hlen] at hm
    cases hg : b.rows.get? b.c.y with
    | none =>
      simp only [hg] at hm
      cases hm
    | some cur =>
      simp only [hg] at hm
      by_cases hx : b.c.x < byteLen cur.chars
      · rw [if_pos hx] at hm
        cases hm
        refine cursorOK_of_row (get?_set_self _ _ _ (get?_some_lt hg)) ?_
        exact boundary_insert (cursorOK_row h hg) _
      · rw [if_neg hx] at hm
        cases hg2 : b.rows.get? (b.c.y + 1) with
        | some nxt =>
          simp only [hg2, TextBuffer.delete_row] at hm
          cases hm
          refine cursorOK_of_row (r := cur.append_str nxt.chars) ?_ ?_
          · show ((b.rows.set b.c.y _).eraseIdx (b.c.y + 1)).get? b.c.y = _
            rw [eraseIdx_get?_lt _ _ _ (by omega)]
            exact get?_set_self _ _ _ (get?_some_lt hg)
          · have hxe : b.c.x = byteLen cur.chars :=
              le_antisymm (isBoundary_le (cursorOK_row h hg)) (by omega)
            show isBoundary (cur.chars ++ nxt.chars) b.c.x = true
            rw [hxe]
            have := isBoundary_append_byteLen_add (isBoundary_zero nxt.chars) cur.chars
            simpa using this
        | none =>
          simp only [hg2] at hm
          cases hm
          exact h

theorem delete_back_char_cursorOK {b b' : TextBuffer} (h : cursorOK b = true)
    (hm : b.delete_back_char = some b') : cursorOK b' = true := by
  unfold TextBuffer.delete_back_char at hm
  cases hml : b.move_cursor .left with
  | none =>
    rw [hml] at hm
    cases hm
  | some b1 =>
    rw [hml] at hm
    simp only [Option.bind] at hm
    exact delete_char_cursorOK (move_left_cursorOK h hml) hm

theorem searchGo_cursorOK {fwd : Bool} {q : Str} {b : TextBuffer}
    {lm0 : Option (Nat × Nat × Nat)} (h : cursorOK b = true) :
    ∀ (k cy cxs cxe : Nat),
      (∀ r, b.rows.get? cy = some r →
        isBoundary r.chars cxs = true ∧ isBoundary r.chars cxe = true) →
      ∀ b' lm', searchGo fwd q b lm0 k cy cxs cxe = some (b', lm') →
        cursorOK b' = true := by
  intro k
  induction k with
  | zero =>
    intro cy cxs cxe hw b' lm' hs
    simp only [searchGo] at hs
    cases hs
    exact h
  | succ n ih =>
    intro cy cxs cxe hw b' lm' hs
    simp only [searchGo] at hs
    cases hg : b.rows.get? cy with
    | none =>
      rw [hg] at hs
      cases hs
    | some row =>
      rw [hg] at hs
      simp only at hs
      cases hfwd : fwd with
      | true =>
        subst hfwd
        rw [if_pos (show (true : Bool) = true from rfl)] at hs
        cases hmi : matchIndicesHead q (dropB cxe row.chars) with
        | some d =>
          rw [hmi] at hs
          simp only [Option.map_some'] at hs
          cases hs
          refine cursorOK_of_row (b := ⟨⟨cxe + d, cy⟩, b.rows, b.is_dirty,
            b.render_rect⟩) hg ?_
          exact boundary_dropB_add ((hw row hg).2) (matchIndicesHead_boundary hmi)
        | none =>
          rw [hmi] at hs
          simp only [Option.map_none'] at hs
          simp only [if_true] at hs
          cases hg2 : b.rows.get? ((cy + 1) % b.rows.length) with
          | none =>
            simp only [hg2] at hs
            cases hs
          | some row2 =>
            simp only [hg2] at hs
            refine ih _ _ _ ?_ b' lm' hs
            intro r hr2
            rw [hg2] at hr2
            cases hr2
            exact ⟨isBoundary_byteLen _, isBoundary_zero _⟩
      | false =>
        subst hfwd
        rw [if_neg (show ¬ (false : Bool) = true from by simp)] at hs
        cases hmi : rmatchIndicesHead q (takeB cxs row.chars) with
        | some d =>
          rw [hmi] at hs
          cases hs
          refine cursorOK_of_row (b := ⟨⟨d, cy⟩, b.rows, b.is_dirty,
            b.render_rect⟩) hg ?_
          exact boundary_takeB_prefix (rmatchIndicesHead_boundary hmi)
        | none =>
          simp only [hmi] at hs
          simp only [Bool.false_eq_true, if_false] at hs
          cases hg2 : b.rows.get? (if cy = 0 then b.rows.length - 1 else cy - 1) with
          | none =>
            simp only [hg2] at hs
            cases hs
          | some row2 =>
            simp only [hg2] at hs
            refine ih _ _ _ ?_ b' lm' hs
            intro r hr2
            rw [hg2] at hr2
            cases hr2
            exact ⟨isBoundary_byteLen _, isBoundary_zero _⟩

theorem find_search_cursorOK {fwd : Bool} {lm : Option (Nat × Nat × Nat)} {q : Str}
    {b b' : TextBuffer} {lm' : Option (Nat × Nat × Nat)} (h : cursorOK b = true)
    (hlm : lastMatchOK b lm) (hs : find_search fwd lm q b = some (b', lm')) :
    cursorOK b' = true := by
  unfold find_search at hs
  cases lm with
  | none =>
    refine searchGo_cursorOK h _ _ _ _ ?_ b' lm' hs
    intro r hr
    have := cursorOK_row h hr
    exact ⟨this, this⟩
  | some triple =>
    rcases triple with ⟨cy, cxs, cxe⟩
    refine searchGo_cursorOK h _ _ _ _ ?_ b' lm' hs
    intro r hr
    exact hlm r hr

/-- C10: every TextBuffer operation preserves the cursor-boundary
invariant — `c.x` lies on a character boundary of row `c.y`'s text
(hence between 0 and the text length), and `c.x = 0` when the cursor is
past the last row: `move_cursor` steps by whole characters and re-clamps
through `get_cx_from_rx`, the four edit operations move by one
character, `scroll` never touches the cursor, and `Find`'s search sets
`c.x` to a match start (given a consistent remembered `last_match`). -/
theorem c10_cursor_boundary_invariant (b : TextBuffer) (h : cursorOK b = true) :
    (∀ mv b', b.move_cursor mv = some b' → cursorOK b' = true) ∧
      (∀ ch b', b.insert_char ch = some b' → cursorOK b' = true) ∧
      (∀ b', b.insert_newline = some b' → cursorOK b' = true) ∧
      (∀ b', b.delete_char = some b' → cursorOK b' = true) ∧
      (∀ b', b.delete_back_char = some b' → cursorOK b' = true) ∧
      cursorOK (b.scroll).1 = true ∧
      (∀ fwd lm q b' lm', lastMatchOK b lm →
        find_search fwd lm q b = some (b', lm') → cursorOK b' = true) := by
  refine ⟨fun mv b' hm => move_cursor_cursorOK h mv hm,
    fun ch b' hm => insert_char_cursorOK h ch hm,
    fun b' hm => insert_newline_cursorOK h hm,
    fun b' hm => delete_char_cursorOK h hm,
    fun b' hm => delete_back_char_cursorOK h hm,
    ?_, fun fwd lm q b' lm' hlm hs => find_search_cursorOK h hlm hs⟩
  have h1 : (b.scroll).1.rows = b.rows := rfl
  have h2 : (b.scroll).1.c = b.c := rfl
  unfold cursorOK at h ⊢
  rw [h1, h2]
  exact h

/-- C10 witness: on the single-row buffer `"a"` with the cursor at the
origin, moving right lands on the boundary offset 1, where the
invariant still holds. -/
theorem c10_cursor_boundary_invariant_witness :
    cursorOK ⟨⟨1, 0⟩, [⟨[97], SyntaxState.new⟩], false, ⟨⟨0, 0⟩, ⟨2, 2⟩⟩⟩ = true :=
  (c10_cursor_boundary_invariant
      ⟨⟨0, 0⟩, [⟨[97], SyntaxState.new⟩], false, ⟨⟨0, 0⟩, ⟨2, 2⟩⟩⟩ (by decide)).1
    .right ⟨⟨1, 0⟩, [⟨[97], SyntaxState.new⟩], false, ⟨⟨0, 0⟩, ⟨2, 2⟩⟩⟩ (by decide)
